import Mathlib

/-!
# Verification of `find` (jgpruitt/music, `src/find/find.go`)

A shallow embedding of the music inventory program: the directory scanner
(`find`), the per-file extractor (`process`, `hash`, `meta`, `checksum`,
`clean`), the CSV sink (`out`) and the goroutine pipeline set up by `main`.

Modelling conventions

* A Go `string` is the sequence of runes that `range` and `strings.Map`
  decode from it (`GoString`); invalid bytes decode to U+FFFD, which is a rune
  like any other.
* A file path is its list of elements (`Path`); `filepath.Join path name`
  appends one element, `filepath.Ext` looks at the final element.
* The file system and the tag library are inputs: a directory tree (`Entry`)
  for the walk, and for every file the outcome of each library call
  (`FileOps`).
* Console output (`fmt.Println`) is not modelled.
-/

namespace Music

/-! ## Strings -/

/-- A Go string, as the sequence of its runes. -/
abbrev GoString := List Char

/-- The mapping function handed to `strings.Map` in `clean` (find.go 230-242):
the rune itself for `A-Z`, `a-z`, `0-9` and the space, `-1` otherwise. -/
def cleanRune (r : Int) : Int :=
  if 65 ≤ r ∧ r ≤ 90 then r          -- 'A' <= r && r <= 'Z'
  else if 97 ≤ r ∧ r ≤ 122 then r    -- 'a' <= r && r <= 'z'
  else if 48 ≤ r ∧ r ≤ 57 then r     -- '0' <= r && r <= '9'
  else if r = 32 then r              -- r == ' '
  else -1

/-- The library function `strings.Map`: applies `mapping` to every rune, and
drops the rune when the mapping returns a negative value. -/
def stringsMap (mapping : Int → Int) (s : GoString) : GoString :=
  s.filterMap fun c =>
    let r := mapping (c.toNat : Int)
    if r < 0 then none else some (Char.ofNat r.toNat)

/-- The function `clean` (find.go 229-243). -/
def clean (str : GoString) : GoString :=
  stringsMap cleanRune str

/-- The library function `unicode.ToLower`: ASCII letters are handled inline,
every other rune goes through the Unicode case tables, here the parameter
`tbl`. -/
def unicodeToLower (tbl : Char → Char) (c : Char) : Char :=
  if c.toNat ≤ 127 then
    if 65 ≤ c.toNat ∧ c.toNat ≤ 90 then Char.ofNat (c.toNat + 32) else c
  else tbl c

/-- The library function `strings.ToLower`. -/
def stringsToLower (tbl : Char → Char) (s : GoString) : GoString :=
  s.map (unicodeToLower tbl)

/-- The library function `strings.HasPrefix`. -/
def hasPrefix (s pre : GoString) : Bool :=
  pre.isPrefixOf s

/-- The characters the specification allows in a sanitized field: ASCII
letters, digits and the space. -/
def allowedChars : GoString :=
  "ABCDEFGHIJKLMNOPQRSTUVWXYZabcdefghijklmnopqrstuvwxyz0123456789 ".toList

/-- The code points `clean` keeps. -/
def keptCode (n : Nat) : Prop :=
  (65 ≤ n ∧ n ≤ 90) ∨ (97 ≤ n ∧ n ≤ 122) ∨ (48 ≤ n ∧ n ≤ 57) ∨ n = 32

instance (n : Nat) : Decidable (keptCode n) := by
  unfold keptCode; infer_instance

/-- The number of bytes of the UTF-8 encoding of a string. -/
def utf8Len (s : GoString) : Nat :=
  (s.map Char.utf8Size).sum

/-! ## Paths -/

/-- A cleaned file path: whether it is absolute, and its elements. -/
structure Path where
  isAbs : Bool
  elems : List GoString
deriving DecidableEq

/-- The library function `filepath.Join path name` for a cleaned `path` and a
directory entry name. -/
def Path.join (p : Path) (name : GoString) : Path :=
  { p with elems := p.elems ++ [name] }

/-- The library function `os.IsPathSeparator` (the program's roots are Windows
paths). -/
def isPathSeparator (c : Char) : Bool :=
  c = '\\' || c = '/'

/-- The loop of `filepath.Ext` over the reversed name: the suffix from the
final dot on, empty when a separator or the start is reached first. `acc` is
what has been scanned so far. -/
def extScan : List Char → List Char → GoString
  | [], _ => []
  | c :: rest, acc =>
    if isPathSeparator c then []
    else if c = '.' then c :: acc
    else extScan rest (c :: acc)

/-- The library function `filepath.Ext` on a single path element. -/
def extOf (name : GoString) : GoString :=
  extScan name.reverse []

/-- The library function `filepath.Ext`: the extension of the final element of
the path. -/
def Path.ext (p : Path) : GoString :=
  extOf (p.elems.getLast?.getD [])

/-- The library function `filepath.Abs` on a path none of whose elements is
`.` or `..`, so that the `Clean` it applies leaves the result as it is: an
absolute path is returned unchanged, a relative one is joined to the working
directory `cwd`; `none` when `os.Getwd` fails. (For a relative root with `..`
elements the library also folds them away; the roots of the program are
absolute.) -/
def filepathAbs (cwd : Option (List GoString)) (p : Path) : Option Path :=
  if p.isAbs then some p
  else match cwd with
    | none => none
    | some d => some { isAbs := true, elems := d ++ p.elems }

/-! ## Records -/

/-- A `time.Time` instant, as a number. -/
abbrev Time := Int

/-- The struct `record` (find.go 26-46). -/
structure record where
  file : Path
  ext : GoString
  size : Int
  mod : Time
  md5 : GoString
  musichash : GoString
  format : GoString
  filetype : GoString
  title : GoString
  album : GoString
  artist : GoString
  albumartist : GoString
  composer : GoString
  genre : GoString
  year : Int
  tracknbr : Int
  tracktot : Int
  disknbr : Int
  disktot : Int
deriving DecidableEq

/-- The record `find` builds (find.go 137-141): `&record{}` with the four
identity fields set and every other field at its zero value. -/
def descriptor (file : Path) (ext : GoString) (size : Int) (mod : Time) : record :=
  { file := file, ext := ext, size := size, mod := mod,
    md5 := [], musichash := [], format := [], filetype := [],
    title := [], album := [], artist := [], albumartist := [],
    composer := [], genre := [],
    year := 0, tracknbr := 0, tracktot := 0, disknbr := 0, disktot := 0 }

/-- A record that carries identity fields only. -/
def record.isDescriptor (r : record) : Prop :=
  r = descriptor r.file r.ext r.size r.mod

instance (r : record) : Decidable r.isDescriptor := by
  unfold record.isDescriptor; infer_instance

/-! ## The extractor -/

/-- What the methods of a `tag.Metadata` value return. -/
structure Metadata where
  format : GoString
  fileType : GoString
  title : GoString
  album : GoString
  artist : GoString
  albumArtist : GoString
  composer : GoString
  year : Int
  genre : GoString
  track : Int × Int
  disc : Int × Int
deriving DecidableEq

/-- The library constant `tag.UnknownFormat`. -/
def UnknownFormat : GoString := []

/-- The library constant `tag.UnknownFileType`. -/
def UnknownFileType : GoString := []

/-- The outcome of every system and library call made for one file. -/
structure FileOps where
  /-- Whether `os.Open` in `hash` returned no error. -/
  hashOpen : Bool
  /-- Result of `io.Copy` into the MD5 state: `none` on error, otherwise the
  digest formatted with `%X`. -/
  hashCopy : Option GoString
  /-- Whether `os.Open` in `meta` returned no error. -/
  metaOpen : Bool
  /-- Result of `tag.ReadFrom`: `none` on error. -/
  readFrom : Option Metadata
  /-- Whether `os.Open` in `checksum` returned no error. -/
  sumOpen : Bool
  /-- Result of `tag.Sum`: the string returned, and whether the error is
  non-nil. -/
  sum : GoString × Bool
deriving DecidableEq

/-- The files of the machine, as seen by the extractor. -/
abbrev World := Path → FileOps

/-- The contract of `tag.Sum`: the string it returns with an error is empty. -/
def World.sumContract (w : World) : Prop :=
  ∀ p, (w p).sum.2 = true → (w p).sum.1 = []

/-- The function `hash` (find.go 165-179). -/
def hash (w : World) (r : record) : record :=
  if (w r.file).hashOpen = false then r
  else match (w r.file).hashCopy with
    | none => r
    | some d => { r with md5 := d }

/-- The function `checksum` (find.go 212-226): the string `tag.Sum` returns
is stored before the error is looked at. -/
def checksum (w : World) (r : record) : record :=
  if (w r.file).sumOpen = false then r
  else { r with musichash := (w r.file).sum.1 }

/-- The function `meta` (find.go 182-209). -/
def meta (w : World) (r : record) : record :=
  if (w r.file).metaOpen = false then r
  else match (w r.file).readFrom with
    | none => r
    | some m =>
      let r := { r with format := m.format, filetype := m.fileType }
      if r.format ≠ UnknownFormat ∧ r.filetype ≠ UnknownFileType then
        checksum w
          { r with
            title := clean m.title
            album := clean m.album
            artist := clean m.artist
            albumartist := clean m.albumArtist
            composer := clean m.composer
            year := m.year
            genre := m.genre
            tracknbr := m.track.1
            tracktot := m.track.2
            disknbr := m.disc.1
            disktot := m.disc.2 }
      else r

/-- The extension for which `process` skips the tag library. -/
def wmaExt : GoString := ".wma".toList

/-- The body of the loop of `process` (find.go 155-160): the record a worker
sends on the second channel for the record `r` it received. -/
def processRecord (w : World) (tbl : Char → Char) (r : record) : record :=
  let r := hash w r
  if stringsToLower tbl r.ext ≠ wmaExt then meta w r else r

/-- The function `process` (find.go 152-162) as a function of the records the
worker receives from the first channel, in order: the records it sends on the
second channel, in order. -/
def process (w : World) (tbl : Char → Char) : List record → List record
  | [] => []
  | r :: rest => processRecord w tbl r :: process w tbl rest

/-! ## The scanner -/

/-- A node of a directory tree, as `filepath.Walk` sees it: a file (anything
that is not a directory), a directory with its entries in the order
`readDirNames` lists them (`readErr` when listing it fails), or a name on
which `os.Lstat` fails. -/
inductive Entry where
  | file (name : GoString) (size : Int) (mod : Time)
  | dir (name : GoString) (readErr : Bool) (children : List Entry)
  | broken (name : GoString)

/-- The name of a node. -/
def Entry.name : Entry → GoString
  | .file n _ _ => n
  | .dir n _ _ => n
  | .broken n => n

/-- Whether a node is a directory. -/
def Entry.isDir : Entry → Bool
  | .dir _ _ _ => true
  | _ => false

/-- What the callback reads from an `os.FileInfo`. -/
structure FileInfo where
  name : GoString
  isDir : Bool
  size : Int
  modTime : Time
deriving DecidableEq

/-- A non-nil error returned by a walk callback: `filepath.SkipDir` or any
other error. -/
inductive WalkErr where
  | skipDir
  | failed
deriving DecidableEq

/-- A walk callback: path, file info (absent when `os.Lstat` failed), whether
the incoming error is non-nil; it returns the records it sent and its error. -/
abbrev WalkFunc := Path → Option FileInfo → Bool → List record × Option WalkErr

/-- The global `exts`, as filled by `main` (find.go 62-69). -/
def exts : List GoString :=
  [".m4a".toList, ".m4p".toList, ".m4v".toList, ".mp3".toList,
   ".ogg".toList, ".wav".toList, ".wma".toList]

/-- The callback `find` hands to `filepath.Walk` (find.go 116-144). `cwd` is
the working directory `filepath.Abs` reads. `filepath.Walk` passes no file
info only together with an error. -/
def visit (cwd : Option (List GoString)) : WalkFunc := fun path info err =>
  if err then ([], some .failed)
  else match info with
    | none => ([], some .failed)
    | some info =>
      if info.isDir && hasPrefix info.name ".".toList then ([], some .skipDir)
      else if info.isDir then ([], none)
      else if hasPrefix info.name ".".toList then ([], none)
      else if path.ext ∉ exts then ([], none)
      else match filepathAbs cwd path with
        | none => ([], some .failed)
        | some abs => ([descriptor abs abs.ext info.size info.modTime], none)

/-- Whether the loop of `walk` returns after the entry `e`, whose visit
returned `r`: after a failed `os.Lstat` on any error but `SkipDir`, otherwise
on any error, `SkipDir` of a directory excepted. -/
def stopsAt (e : Entry) (r : List record × Option WalkErr) : Bool :=
  match e with
  | .broken _ => r.2.isSome && r.2 ≠ some .skipDir
  | _ => r.2.isSome && (!e.isDir || r.2 ≠ some .skipDir)

mutual
/-- The library function `walk` of `path/filepath`, with the case of a name on
which `os.Lstat` failed (the callback is called with the error). -/
def walk (fn : WalkFunc) (path : Path) : Entry → List record × Option WalkErr
  | .file name size mod => fn path (some ⟨name, false, size, mod⟩) false
  | .broken _ => fn path none true
  | .dir name readErr children =>
    let r1 := fn path (some ⟨name, true, 0, 0⟩) readErr
    if readErr || r1.2.isSome then r1
    else
      let r2 := walkNames fn path children
      (r1.1 ++ r2.1, r2.2)
/-- The loop of `walk` over the names of a directory. -/
def walkNames (fn : WalkFunc) (path : Path) : List Entry → List record × Option WalkErr
  | [] => ([], none)
  | e :: rest =>
    let r := walk fn (path.join e.name) e
    if stopsAt e r then r
    else
      let r2 := walkNames fn path rest
      (r.1 ++ r2.1, r2.2)
end

/-- The library function `filepath.Walk`. -/
def filepathWalk (fn : WalkFunc) (root : Path) (e : Entry) : List record × Option WalkErr :=
  let r := walk fn root e
  if r.2 = some .skipDir then (r.1, none) else r

/-- The function `find` (find.go 114-149): the records it sends on the
channel, in order, for the root path `root` whose tree is `e`. -/
def find (cwd : Option (List GoString)) (root : Path) (e : Entry) : List record :=
  (filepathWalk (visit cwd) root e).1

/-- The tree `e` holds a file of the given size and modification time;
`names` are the names met on the way from `e` down to the file, the name of `e`
first and the name of the file last. -/
inductive FileAt : Entry → List GoString → Int → Time → Prop
  | here (n : GoString) (s : Int) (m : Time) : FileAt (.file n s m) [n] s m
  | under (n : GoString) (re : Bool) (cs : List Entry) (c : Entry)
      (names : List GoString) (s : Int) (m : Time) :
      c ∈ cs → FileAt c names s m → FileAt (.dir n re cs) (n :: names) s m

/-- The path `filepath.Walk` gives to the file reached from the root path
`root` by `names` (the first name is the one of the root itself). -/
def filePath (root : Path) (names : List GoString) : Path :=
  { root with elems := root.elems ++ names.tail }

/-- The scanner emits a record for the file reached by `names`: one of the
records sent by `find` carries the absolute form of the path of that file. -/
def emitsFor (cwd : Option (List GoString)) (root : Path) (e : Entry)
    (names : List GoString) : Prop :=
  ∃ r ∈ find cwd root e, filepathAbs cwd (filePath root names) = some r.file

instance (cwd : Option (List GoString)) (root : Path) (e : Entry)
    (names : List GoString) : Decidable (emitsFor cwd root e names) := by
  unfold emitsFor; infer_instance

/-- A name that starts with a dot. -/
def dotName (n : GoString) : Prop :=
  hasPrefix n ".".toList = true

instance (n : GoString) : Decidable (dotName n) := by
  unfold dotName; infer_instance

/-- The facts `find` has checked for a record it sent. -/
def SentFor (cwd : Option (List GoString)) (path : Path) (e : Entry) (r : record) : Prop :=
  ∃ names s m, FileAt e names s m ∧ (∀ n ∈ names, ¬ dotName n) ∧
    (filePath path names).ext ∈ exts ∧
    filepathAbs cwd (filePath path names) = some r.file ∧
    r = descriptor r.file r.file.ext s m

/-- Sample root path `C:\music\music1`. -/
def sampleRoot : Path :=
  { isAbs := true, elems := ["C:".toList, "music".toList, "music1".toList] }

/-- The tree of the scenario of the specification: `a.mp3`, `b.wma`, `c.txt`
and `.trash/d.mp3`, with a file `.e.mp3` whose name starts with a dot. -/
def sampleTree : Entry :=
  .dir "music1".toList false
    [ .dir ".trash".toList false [ .file "d.mp3".toList 4 40 ],
      .file ".e.mp3".toList 5 50,
      .file "a.mp3".toList 1 10,
      .file "b.wma".toList 2 20,
      .file "c.txt".toList 3 30 ]

/-- The way to `a.mp3` in the sample tree. -/
def sampleFile : List GoString := ["music1".toList, "a.mp3".toList]

/-- The way to `.e.mp3` in the sample tree. -/
def sampleDotFile : List GoString := ["music1".toList, ".e.mp3".toList]

/-- The way to `.trash/d.mp3` in the sample tree. -/
def sampleHiddenFile : List GoString :=
  ["music1".toList, ".trash".toList, "d.mp3".toList]

/-! ## The sink -/

/-- The character of a decimal digit. -/
def digitChar (d : Nat) : Char :=
  Char.ofNat (48 + d)

/-- The digit loop of the integer formatter: the digits of `n` are put in
front of `acc`, least significant first; `fuel` bounds the number of steps. -/
def formatBits : Nat → Nat → List Char → List Char
  | 0, _, acc => acc
  | fuel + 1, n, acc =>
    if n < 10 then digitChar n :: acc
    else formatBits fuel (n / 10) (digitChar (n % 10) :: acc)

/-- The decimal form of a natural number. -/
def natDecimal (n : Nat) : GoString :=
  formatBits (n + 1) n []

/-- The library call `fmt.Sprintf("%d", n)`. -/
def sprintfD (n : Int) : GoString :=
  if n < 0 then '-' :: natDecimal n.natAbs else natDecimal n.natAbs

/-- The value of a decimal digit, if the character is one. -/
def digitValue (c : Char) : Option Nat :=
  if 48 ≤ c.toNat ∧ c.toNat ≤ 57 then some (c.toNat - 48) else none

/-- The number a string of decimal digits stands for, read after `acc`; `none`
when a character is not a digit. -/
def natValue : GoString → Nat → Option Nat
  | [], acc => some acc
  | c :: cs, acc =>
    match digitValue c with
    | none => none
    | some d => natValue cs (10 * acc + d)

/-- The integer a decimal numeral stands for: an optional minus sign, then
digits. -/
def decimalValue (s : GoString) : Option Int :=
  match s with
  | [] => none
  | c :: ds =>
    if c = '-' then Option.map (fun (v : Nat) => -Int.ofNat v) (natValue ds 0)
    else Option.map (fun (v : Nat) => Int.ofNat v) (natValue (c :: ds) 0)

/-- The string of a path: its elements with the separator between them. -/
def Path.render (p : Path) : GoString :=
  List.intercalate ['\\'] p.elems

/-- The row `out` hands to the CSV writer for one record (find.go 260-280);
`timeFormat` is `time.Time.Format` with the layout of the program. -/
def row (timeFormat : Time → GoString) (r : record) : List GoString :=
  [ r.file.render,
    r.ext,
    sprintfD r.size,
    timeFormat r.mod,
    r.md5,
    r.musichash,
    r.format,
    r.filetype,
    r.title,
    r.album,
    r.albumartist,
    r.artist,
    r.composer,
    r.genre,
    sprintfD r.year,
    sprintfD r.tracknbr,
    sprintfD r.tracktot,
    sprintfD r.disknbr,
    sprintfD r.disktot ]

/-- The loop of `out` (find.go 259-288) over the records that arrive on the
channel, in order: the counter `nbr` and the rows written so far. -/
def outLoop (timeFormat : Time → GoString) :
    List record → Int → List (List GoString) → Int × List (List GoString)
  | [], nbr, rows => (nbr, rows)
  | r :: rest, nbr, rows => outLoop timeFormat rest (nbr + 1) (rows ++ [row timeFormat r])

/-- The function `out` (find.go 246-294): `none` when `os.Create` fails,
otherwise the final counter and the rows written, in order. -/
def out (timeFormat : Time → GoString) (created : Bool) (records : List record) :
    Option (Int × List (List GoString)) :=
  if created then some (outLoop timeFormat records 0 []) else none

/-- A sample time format, for the examples: the decimal form of the instant. -/
def sampleTimeFormat : Time → GoString := sprintfD

/-! ## The pipeline of `main`

The goroutines of `main` as a transition system. A state holds the program
point of every goroutine, the two buffered channels and the two wait groups; a
step is one action of one goroutine. The initial state is the one in which
`main` has made both channels, added to both wait groups and started every
goroutine (find.go 72-97), and stands at `wg1.Wait()`; no goroutine has moved
yet. -/

/-- The capacity of `records1` and of `records2` (find.go 72, 82). -/
def chanCap : Nat := 20

/-- The number of `process` goroutines (find.go 89-92). -/
def nWorkers : Nat := 8

/-- A buffered channel of records. -/
structure Chan where
  buf : List record
  closed : Bool
deriving DecidableEq

/-- A `find` goroutine: it still has the records `todo` to send, or it has run
its deferred `wg.Done()`. -/
inductive FindTask where
  | sending (todo : List record)
  | exited
deriving DecidableEq

/-- A `process` goroutine: at the `range` over `records1`, at the send of the
processed record on `records2`, or after its deferred `wg.Done()`. -/
inductive ProcTask where
  | receiving
  | sending (r : record)
  | exited
deriving DecidableEq

/-- The `out` goroutine: before `os.Create`, at the `range` over `records2`,
at the deferred send on `done`, or returned. -/
inductive OutTask where
  | creating
  | receiving
  | signalling
  | exited
deriving DecidableEq

/-- The program point of `main` (find.go 100-110). -/
inductive MainTask where
  | waitFinders
  | closeRecords1
  | waitWorkers
  | closeRecords2
  | waitDone
  | finished
deriving DecidableEq

/-- A state of the pipeline. `rows` are the records written by `out`, in
order; `panicked` is set by a send on a closed channel, a close of a closed
channel or a negative wait-group counter. -/
structure Pipeline where
  finders : List FindTask
  wg1 : Nat
  records1 : Chan
  workers : List ProcTask
  wg2 : Nat
  records2 : Chan
  outTask : OutTask
  rows : List record
  mainTask : MainTask
  panicked : Bool
deriving DecidableEq

/-- One move of one goroutine. -/
inductive Action where
  | find (i : Nat)
  | proc (j : Nat)
  | out
  | main
deriving DecidableEq

/-- The state after `main` has started every goroutine; `todos` holds, for
every root, the records its `find` goroutine will send. -/
def Pipeline.init (todos : List (List record)) : Pipeline :=
  { finders := todos.map FindTask.sending
    wg1 := todos.length
    records1 := { buf := [], closed := false }
    workers := List.replicate nWorkers ProcTask.receiving
    wg2 := nWorkers
    records2 := { buf := [], closed := false }
    outTask := .creating
    rows := []
    mainTask := .waitFinders
    panicked := false }

/-- A move of the `find` goroutine `i` (find.go 114-149): send the next record
on `records1` (blocked while the buffer is full, a panic when the channel is
closed), or, with nothing left to send, run `wg.Done()`. -/
def stepFind (s : Pipeline) (i : Nat) : Option Pipeline :=
  match s.finders[i]? with
  | some (.sending (r :: rest)) =>
    if s.records1.closed then some { s with panicked := true }
    else if s.records1.buf.length < chanCap then
      some { s with
        finders := s.finders.set i (.sending rest)
        records1 := { s.records1 with buf := s.records1.buf ++ [r] } }
    else none
  | some (.sending []) =>
    if s.wg1 = 0 then some { s with panicked := true }
    else some { s with finders := s.finders.set i .exited, wg1 := s.wg1 - 1 }
  | _ => none

/-- A move of the `process` goroutine `j` (find.go 152-162): receive a record
from `records1` and run `hash` and `meta` on it (blocked while the channel is
empty and open; when it is empty and closed the loop ends and `wg.Done()`
runs), or send the processed record on `records2`. -/
def stepProc (w : World) (tbl : Char → Char) (s : Pipeline) (j : Nat) : Option Pipeline :=
  match s.workers[j]? with
  | some .receiving =>
    match s.records1.buf with
    | r :: rest =>
      some { s with
        workers := s.workers.set j (.sending (processRecord w tbl r))
        records1 := { s.records1 with buf := rest } }
    | [] =>
      if s.records1.closed then
        if s.wg2 = 0 then some { s with panicked := true }
        else some { s with workers := s.workers.set j .exited, wg2 := s.wg2 - 1 }
      else none
  | some (.sending r) =>
    if s.records2.closed then some { s with panicked := true }
    else if s.records2.buf.length < chanCap then
      some { s with
        workers := s.workers.set j .receiving
        records2 := { s.records2 with buf := s.records2.buf ++ [r] } }
    else none
  | _ => none

/-- A move of the `out` goroutine (find.go 246-294): `os.Create` (on failure
the function returns, which leads to the deferred send on `done`), or the
receipt and writing of one record (when `records2` is empty and closed the
loop ends, and the function goes on to the deferred send). The send on `done`
itself happens together with the receive of `main`, see `stepMain`. -/
def stepOut (created : Bool) (s : Pipeline) : Option Pipeline :=
  match s.outTask with
  | .creating =>
    if created then some { s with outTask := .receiving }
    else some { s with outTask := .signalling }
  | .receiving =>
    match s.records2.buf with
    | r :: rest =>
      some { s with
        rows := s.rows ++ [r]
        records2 := { s.records2 with buf := rest } }
    | [] =>
      if s.records2.closed then some { s with outTask := .signalling }
      else none
  | _ => none

/-- A move of `main` (find.go 100-110): `wg1.Wait()`, `close(records1)`,
`wg2.Wait()`, `close(records2)`, and the receive on the unbuffered channel
`done`, which takes place together with the send of `out`. -/
def stepMain (s : Pipeline) : Option Pipeline :=
  match s.mainTask with
  | .waitFinders =>
    if s.wg1 = 0 then some { s with mainTask := .closeRecords1 } else none
  | .closeRecords1 =>
    if s.records1.closed then some { s with panicked := true }
    else some { s with
      records1 := { s.records1 with closed := true }
      mainTask := .waitWorkers }
  | .waitWorkers =>
    if s.wg2 = 0 then some { s with mainTask := .closeRecords2 } else none
  | .closeRecords2 =>
    if s.records2.closed then some { s with panicked := true }
    else some { s with
      records2 := { s.records2 with closed := true }
      mainTask := .waitDone }
  | .waitDone =>
    if s.outTask = .signalling then
      some { s with outTask := .exited, mainTask := .finished }
    else none
  | .finished => none

/-- One step of the pipeline: no goroutine moves after a panic or after `main`
has returned. -/
def step (w : World) (tbl : Char → Char) (created : Bool) (s : Pipeline) :
    Action → Option Pipeline
  | .find i => if s.panicked || s.mainTask = .finished then none else stepFind s i
  | .proc j => if s.panicked || s.mainTask = .finished then none else stepProc w tbl s j
  | .out => if s.panicked || s.mainTask = .finished then none else stepOut created s
  | .main => if s.panicked || s.mainTask = .finished then none else stepMain s

/-- The states the pipeline can be in, for the records `todos` of the scanners
and the outcome `created` of `os.Create`. -/
inductive Reachable (w : World) (tbl : Char → Char) (created : Bool)
    (todos : List (List record)) : Pipeline → Prop
  | init : Reachable w tbl created todos (Pipeline.init todos)
  | step (s s' : Pipeline) (a : Action) :
      Reachable w tbl created todos s → step w tbl created s a = some s' →
      Reachable w tbl created todos s'

/-- The state after a schedule, when every action of it is enabled in turn. -/
def run (w : World) (tbl : Char → Char) (created : Bool) :
    Pipeline → List Action → Option Pipeline
  | s, [] => some s
  | s, a :: rest =>
    match step w tbl created s a with
    | none => none
    | some s' => run w tbl created s' rest

/-- The records a `find` goroutine has still to send. -/
def FindTask.todo : FindTask → List record
  | .sending todo => todo
  | .exited => []

/-- The record a `process` goroutine holds. -/
def ProcTask.held : ProcTask → List record
  | .sending r => [r]
  | _ => []

/-- The state of the pipeline right after `main` has started the goroutines,
for the given roots and their trees. -/
def mainInit (cwd : Option (List GoString)) (roots : List (Path × Entry)) : Pipeline :=
  Pipeline.init (roots.map fun re => find cwd re.1 re.2)

/-- How far `main` has come: the number of its program point. -/
def MainTask.rank : MainTask → Nat
  | .waitFinders => 0
  | .closeRecords1 => 1
  | .waitWorkers => 2
  | .closeRecords2 => 3
  | .waitDone => 4
  | .finished => 5

/-- Whether a `find` goroutine has not run `wg.Done()` yet. -/
def FindTask.live : FindTask → Nat
  | .sending _ => 1
  | .exited => 0

/-- Whether a `process` goroutine has not run `wg.Done()` yet. -/
def ProcTask.live : ProcTask → Nat
  | .exited => 0
  | _ => 1

/-- The number of `find` goroutines that have not finished. -/
def liveFinders (s : Pipeline) : Nat :=
  (s.finders.map FindTask.live).sum

/-- The number of `process` goroutines that have not finished. -/
def liveWorkers (s : Pipeline) : Nat :=
  (s.workers.map ProcTask.live).sum

/-- How often the processed form `x` is among the records one `find`
goroutine has still to send. -/
def FindTask.pending (w : World) (tbl : Char → Char) (x : record) (t : FindTask) : Nat :=
  (t.todo.map (processRecord w tbl)).count x

/-- How often `x` is held by one `process` goroutine. -/
def ProcTask.holds (x : record) (t : ProcTask) : Nat :=
  t.held.count x

/-- How often the processed form `x` is among the records the `find`
goroutines have still to send. -/
def pendingCount (w : World) (tbl : Char → Char) (x : record) (s : Pipeline) : Nat :=
  (s.finders.map (FindTask.pending w tbl x)).sum

/-- How often `x` is held by a `process` goroutine. -/
def heldCount (x : record) (s : Pipeline) : Nat :=
  (s.workers.map (ProcTask.holds x)).sum

/-- The invariant of the pipeline. -/
structure Inv (w : World) (tbl : Char → Char) (created : Bool)
    (todos : List (List record)) (s : Pipeline) : Prop where
  noPanic : s.panicked = false
  wg1_eq : s.wg1 = liveFinders s
  wg2_eq : s.wg2 = liveWorkers s
  nworkers : s.workers.length = nWorkers
  wg2_le : s.wg2 ≤ nWorkers
  closed1_iff : s.records1.closed = true ↔ 2 ≤ s.mainTask.rank
  closed2_iff : s.records2.closed = true ↔ 4 ≤ s.mainTask.rank
  finders_done : 1 ≤ s.mainTask.rank → s.wg1 = 0
  workers_done : 3 ≤ s.mainTask.rank → s.wg2 = 0
  worker_exit : s.wg2 < nWorkers → s.records1.closed = true ∧ s.records1.buf = []
  out_done : created = true → (s.outTask = .signalling ∨ s.outTask = .exited) →
    s.records2.closed = true ∧ s.records2.buf = []
  out_exited : s.outTask = .exited ↔ s.mainTask = .finished
  out_failed : created = false → s.outTask ≠ .receiving ∧ s.rows = []
  conserve : ∀ x, pendingCount w tbl x s + (s.records1.buf.map (processRecord w tbl)).count x
    + heldCount x s + s.records2.buf.count x + s.rows.count x
    = ((todos.flatten).map (processRecord w tbl)).count x

/-- The number of records a `find` goroutine has still to send. -/
def FindTask.left (t : FindTask) : Nat :=
  t.todo.length

/-- The number of records a `process` goroutine holds. -/
def ProcTask.load (t : ProcTask) : Nat :=
  t.held.length

/-- The number of moves `out` has before it can only signal. -/
def OutTask.rank : OutTask → Nat
  | .creating => 2
  | .receiving => 1
  | _ => 0

/-- A bound on the number of steps the pipeline can still take: every step
makes it smaller. -/
def workLeft (s : Pipeline) : Nat :=
  5 * (s.finders.map FindTask.left).sum + 4 * s.records1.buf.length
    + 3 * (s.workers.map ProcTask.load).sum + 2 * s.records2.buf.length
    + (s.finders.map FindTask.live).sum + (s.workers.map ProcTask.live).sum
    + s.outTask.rank + (5 - s.mainTask.rank) + (if s.panicked then 0 else 1)

/-- The actions that can be enabled in a state at all: one per goroutine. -/
def candidates (s : Pipeline) : List Action :=
  (List.range s.finders.length).map Action.find ++
  (List.range s.workers.length).map Action.proc ++ [Action.out, Action.main]

/-- No goroutine can move. -/
def stuck (w : World) (tbl : Char → Char) (created : Bool) (s : Pipeline) : Bool :=
  (candidates s).all fun a => (step w tbl created s a).isNone

/-! ## Sample data for the extractor -/

/-- A sample absolute path, `C:\music\music1\a.mp3`. -/
def samplePath : Path :=
  { isAbs := true, elems := ["C:".toList, "music".toList, "music1".toList, "a.mp3".toList] }

/-- Sample tags: a recognized format and file type, and a genre with a
character outside the sanitizer's alphabet. -/
def sampleTags : Metadata :=
  { format := "ID3v2.3".toList, fileType := "MP3".toList,
    title := "Song A".toList, album := "Paul's Boutique [Explicit]".toList,
    artist := "Beastie Boys".toList, albumArtist := "Beastie Boys".toList,
    composer := "".toList, year := 1989, genre := "Hip-Hop/Rap".toList,
    track := (5, 15), disc := (1, 1) }

/-- A sample world in which every call succeeds on every file. -/
def sampleWorld : World := fun _ =>
  { hashOpen := true, hashCopy := some "D41D8CD98F00B204E9800998ECF8427E".toList,
    metaOpen := true, readFrom := some sampleTags,
    sumOpen := true, sum := ("da39a3ee5e6b4b0d3255bfef95601890afd80709".toList, false) }

/-- A sample world in which every call fails on every file. -/
def failingWorld : World := fun _ =>
  { hashOpen := false, hashCopy := none,
    metaOpen := false, readFrom := none,
    sumOpen := false, sum := ([], true) }

/-! ## Sample runs of the pipeline -/

/-- A root tree with a single music file. -/
def singleTree : Entry :=
  .dir "music1".toList false [ .file "a.mp3".toList 10 20 ]

/-- A single scanner, whose `find` sends one record. -/
def oneRecord : List (List record) :=
  [find none sampleRoot singleTree]

/-- A run of the pipeline for `oneRecord` in which `os.Create` fails: the
record goes through both queues while `out` waits to signal, and `main` goes
through all its phases. -/
def lostSchedule : List Action :=
  [.out, .find 0, .find 0, .main, .main, .proc 0, .proc 0] ++
  (List.range 8).map Action.proc ++ [.main, .main, .main]

/-- Six scanners, as in `main`: the first one has 49 records to send, the
others none. -/
def manyRecords : List (List record) :=
  ((List.range 49).map fun n => descriptor samplePath ".mp3".toList (n : Int) 20) ::
    List.replicate 5 []

/-- A run of the pipeline for `manyRecords` in which `os.Create` fails: the
five idle scanners finish, the first scanner fills the first queue, the eight
workers fill the second one. -/
def stuckSchedule : List Action :=
  [.out] ++ (List.range 5).map (fun i => Action.find (i + 1)) ++
  List.replicate 20 (.find 0) ++
  ((List.range 8).map fun j => [Action.proc j, Action.find 0]).flatten ++
  ((List.range 20).map fun k => [Action.proc (k % 8), Action.proc (k % 8), Action.find 0]).flatten

/-- Six scanners, as in `main`: the first one has 21 records to send, the
others none. -/
def overflowRecords : List (List record) :=
  ((List.range 21).map fun n => descriptor samplePath ".mp3".toList (n : Int) 20) ::
    List.replicate 5 []

/-- A run of the pipeline for `overflowRecords` in which `os.Create` fails:
the five idle scanners finish, one worker moves twenty records into the second
queue, `main` closes the first queue, the worker takes the last record and the
other seven workers finish. -/
def overflowSchedule : List Action :=
  [.out] ++ (List.range 5).map (fun i => Action.find (i + 1)) ++
  List.replicate 20 (.find 0) ++
  (List.replicate 20 [Action.proc 0, Action.proc 0]).flatten ++
  [.find 0, .find 0, .main, .main, .proc 0] ++
  (List.range 7).map (fun j => Action.proc (j + 1))

/-- A run of the pipeline for `oneRecord` in which `os.Create` succeeds and
the record is written. -/
def deliverSchedule : List Action :=
  [.out, .find 0, .find 0, .main, .main, .proc 0, .proc 0, .out] ++
  (List.range 8).map Action.proc ++ [.main, .main, .out, .main]

-- ════════════════════════ theorems ════════════════════════

/-! ## The sanitizer -/

theorem cleanRune_kept (n : Nat) (h : keptCode n) : cleanRune (n : Int) = n := by
  unfold keptCode at h
  unfold cleanRune
  split_ifs <;> first | rfl | omega

theorem cleanRune_dropped (n : Nat) (h : ¬ keptCode n) : cleanRune (n : Int) = -1 := by
  unfold keptCode at h
  unfold cleanRune
  split_ifs <;> first | rfl | omega

theorem allowedChars_kept : ∀ c ∈ allowedChars, keptCode c.toNat := by
  decide

set_option maxRecDepth 100000 in
theorem kept_allowedChars_aux : ∀ n < 128, keptCode n → Char.ofNat n ∈ allowedChars := by
  decide

theorem mem_allowedChars_iff (c : Char) : c ∈ allowedChars ↔ keptCode c.toNat := by
  constructor
  · exact allowedChars_kept c
  · intro h
    have hlt : c.toNat < 128 := by
      unfold keptCode at h; omega
    have := kept_allowedChars_aux c.toNat hlt h
    simpa using this

theorem stringsMap_cons (f : Int → Int) (c : Char) (s : GoString) :
    stringsMap f (c :: s) =
      (if f (c.toNat : Int) < 0 then stringsMap f s
       else Char.ofNat (f (c.toNat : Int)).toNat :: stringsMap f s) := by
  unfold stringsMap
  by_cases h : f (c.toNat : Int) < 0 <;> simp [List.filterMap_cons, h]

theorem clean_cons_kept (c : Char) (s : GoString) (h : c ∈ allowedChars) :
    clean (c :: s) = c :: clean s := by
  have hk := (mem_allowedChars_iff c).1 h
  unfold clean
  rw [stringsMap_cons, cleanRune_kept _ hk]
  simp

theorem clean_cons_dropped (c : Char) (s : GoString) (h : c ∉ allowedChars) :
    clean (c :: s) = clean s := by
  have hk : ¬ keptCode c.toNat := fun hk => h ((mem_allowedChars_iff c).2 hk)
  unfold clean
  rw [stringsMap_cons, cleanRune_dropped _ hk]
  simp

theorem clean_nil : clean [] = [] := rfl

theorem clean_eq_filter (s : GoString) :
    clean s = s.filter (fun c => decide (c ∈ allowedChars)) := by
  induction s with
  | nil => rfl
  | cons c s ih =>
    by_cases h : c ∈ allowedChars
    · rw [clean_cons_kept c s h, ih]; simp [List.filter_cons, h]
    · rw [clean_cons_dropped c s h, ih]; simp [List.filter_cons, h]

theorem clean_mem_allowed (s : GoString) : ∀ c ∈ clean s, c ∈ allowedChars := by
  intro c hc
  rw [clean_eq_filter] at hc
  simpa using (List.mem_filter.1 hc).2

/-- Claim C4. For every input string, `clean` returns a string made of ASCII
letters, digits and spaces only, and the result is not longer than the input,
counted in runes and counted in UTF-8 bytes. -/
theorem clean_only_allowed_and_not_longer (s : GoString) :
    (∀ c ∈ clean s, c ∈ allowedChars) ∧
    (clean s).length ≤ s.length ∧
    utf8Len (clean s) ≤ utf8Len s := by
  refine ⟨clean_mem_allowed s, ?_, ?_⟩
  · rw [clean_eq_filter]; exact List.length_filter_le _ _
  · rw [clean_eq_filter]
    unfold utf8Len
    induction s with
    | nil => simp
    | cons c s ih =>
      by_cases h : c ∈ allowedChars
      · simp [List.filter_cons, h]; simpa using ih
      · simp [List.filter_cons, h]
        have : ((List.filter (fun c => decide (c ∈ allowedChars)) s).map Char.utf8Size).sum
            ≤ (s.map Char.utf8Size).sum := by simpa using ih
        omega

/-- Claim C6. For every input string, `clean` returns exactly the subsequence of
its characters that are ASCII letters, digits or spaces, in the original order
and multiplicity: an allowed character is kept where it stands, any other
character is dropped and nothing is put in its place. -/
theorem clean_is_filter_of_allowed (s : GoString) :
    clean s = s.filter (fun c => decide (c ∈ allowedChars)) ∧
    (∀ c t, c ∈ allowedChars → clean (c :: t) = c :: clean t) ∧
    (∀ c t, c ∉ allowedChars → clean (c :: t) = clean t) ∧
    (∀ t u : GoString, clean (t ++ u) = clean t ++ clean u) := by
  refine ⟨clean_eq_filter s, clean_cons_kept, clean_cons_dropped, ?_⟩
  intro t u
  simp [clean_eq_filter, List.filter_append]

/-! ## The extractor -/

theorem hash_fields (w : World) (r : record) :
    (hash w r).file = r.file ∧ (hash w r).ext = r.ext ∧ (hash w r).size = r.size ∧
    (hash w r).mod = r.mod ∧ (hash w r).musichash = r.musichash ∧
    (hash w r).format = r.format ∧ (hash w r).filetype = r.filetype ∧
    (hash w r).title = r.title ∧ (hash w r).album = r.album ∧
    (hash w r).artist = r.artist ∧ (hash w r).albumartist = r.albumartist ∧
    (hash w r).composer = r.composer ∧ (hash w r).genre = r.genre ∧
    (hash w r).year = r.year ∧ (hash w r).tracknbr = r.tracknbr ∧
    (hash w r).tracktot = r.tracktot ∧ (hash w r).disknbr = r.disknbr ∧
    (hash w r).disktot = r.disktot := by
  unfold hash
  split_ifs
  · simp
  · split <;> simp

theorem hash_md5 (w : World) (r : record) :
    (hash w r).md5 =
      if (w r.file).hashOpen = true then
        match (w r.file).hashCopy with
        | some d => d
        | none => r.md5
      else r.md5 := by
  unfold hash
  cases h : (w r.file).hashOpen <;> cases h2 : (w r.file).hashCopy <;> simp

theorem process_eq_map (w : World) (tbl : Char → Char) (rs : List record) :
    process w tbl rs = rs.map (processRecord w tbl) := by
  induction rs with
  | nil => rfl
  | cons r rs ih => simp [process, ih]

theorem process_length (w : World) (tbl : Char → Char) (rs : List record) :
    (process w tbl rs).length = rs.length := by
  simp [process_eq_map]

theorem process_getElem? (w : World) (tbl : Char → Char) (rs : List record) (i : Nat) :
    (process w tbl rs)[i]? = (rs[i]?).map (processRecord w tbl) := by
  simp [process_eq_map]

/-- What `processRecord` does to a descriptor: the identity fields are kept, and
a field whose step failed is at its zero value. -/
theorem processRecord_descriptor (w : World) (tbl : Char → Char) (d : record)
    (hd : d.isDescriptor) (hsum : w.sumContract) :
    (processRecord w tbl d).file = d.file ∧
    (processRecord w tbl d).ext = d.ext ∧
    (processRecord w tbl d).size = d.size ∧
    (processRecord w tbl d).mod = d.mod ∧
    ((w d.file).hashOpen = false ∨ (w d.file).hashCopy = none →
      (processRecord w tbl d).md5 = []) ∧
    ((w d.file).metaOpen = false ∨ (w d.file).readFrom = none →
      (processRecord w tbl d).format = [] ∧ (processRecord w tbl d).filetype = [] ∧
      (processRecord w tbl d).title = [] ∧ (processRecord w tbl d).album = [] ∧
      (processRecord w tbl d).artist = [] ∧ (processRecord w tbl d).albumartist = [] ∧
      (processRecord w tbl d).composer = [] ∧ (processRecord w tbl d).genre = [] ∧
      (processRecord w tbl d).year = 0 ∧
      (processRecord w tbl d).tracknbr = 0 ∧ (processRecord w tbl d).tracktot = 0 ∧
      (processRecord w tbl d).disknbr = 0 ∧ (processRecord w tbl d).disktot = 0 ∧
      (processRecord w tbl d).musichash = []) ∧
    ((w d.file).sumOpen = false ∨ (w d.file).sum.2 = true →
      (processRecord w tbl d).musichash = []) := by
  obtain ⟨file, ext, size, mod, md5, musichash, format, filetype, title, album, artist,
    albumartist, composer, genre, year, tracknbr, tracktot, disknbr, disktot⟩ := d
  have hs := hsum file
  simp only [record.isDescriptor, descriptor, record.mk.injEq, true_and] at hd
  obtain ⟨rfl, rfl, rfl, rfl, rfl, rfl, rfl, rfl, rfl, rfl, rfl, rfl, rfl, rfl, rfl⟩ := hd
  unfold processRecord
  have hf := hash_fields w
    { file := file, ext := ext, size := size, mod := mod, md5 := [], musichash := [],
      format := [], filetype := [], title := [], album := [], artist := [],
      albumartist := [], composer := [], genre := [], year := 0, tracknbr := 0,
      tracktot := 0, disknbr := 0, disktot := 0 }
  have hm := hash_md5 w
    { file := file, ext := ext, size := size, mod := mod, md5 := [], musichash := [],
      format := [], filetype := [], title := [], album := [], artist := [],
      albumartist := [], composer := [], genre := [], year := 0, tracknbr := 0,
      tracktot := 0, disknbr := 0, disktot := 0 }
  generalize hash w _ = h at hf hm ⊢
  obtain ⟨file', ext', size', mod', md5', musichash', format', filetype', title', album',
    artist', albumartist', composer', genre', year', tracknbr', tracktot', disknbr',
    disktot'⟩ := h
  simp only at hf hm
  obtain ⟨rfl, rfl, rfl, rfl, rfl, rfl, rfl, rfl, rfl, rfl, rfl, rfl, rfl, rfl, rfl, rfl,
    rfl, rfl⟩ := hf
  subst hm
  simp only [meta, checksum, UnknownFormat, UnknownFileType]
  cases hho : (w file').hashOpen <;> cases hhc : (w file').hashCopy <;>
    cases hmo : (w file').metaOpen <;> cases hrf : (w file').readFrom <;>
    cases hso : (w file').sumOpen <;> cases hse : (w file').sum.2 <;>
    simp [hho, hhc, hmo, hrf, hso, hse] at hs ⊢ <;>
    split_ifs <;> simp_all

/-- Claim C2. For every list of descriptors a worker takes from the scan queue and
every outcome of the open, hash, tag-parse and checksum steps (the world `w`,
in which `tag.Sum` returns the empty string with an error), `process` forwards
exactly one record per descriptor, in order, with the path, extension, size and
modification time of the descriptor, and with every field whose step failed at
its empty or zero default. -/
theorem process_forwards_one_record_per_descriptor (w : World) (tbl : Char → Char)
    (ds : List record) (hd : ∀ d ∈ ds, d.isDescriptor) (hsum : w.sumContract) :
    (process w tbl ds).length = ds.length ∧
    ∀ (i : Nat) (d : record), ds[i]? = some d →
      ∃ r, (process w tbl ds)[i]? = some r ∧
        r.file = d.file ∧ r.ext = d.ext ∧ r.size = d.size ∧ r.mod = d.mod ∧
        ((w d.file).hashOpen = false ∨ (w d.file).hashCopy = none → r.md5 = []) ∧
        ((w d.file).metaOpen = false ∨ (w d.file).readFrom = none →
          r.format = [] ∧ r.filetype = [] ∧ r.title = [] ∧ r.album = [] ∧
          r.artist = [] ∧ r.albumartist = [] ∧ r.composer = [] ∧ r.genre = [] ∧
          r.year = 0 ∧ r.tracknbr = 0 ∧ r.tracktot = 0 ∧ r.disknbr = 0 ∧
          r.disktot = 0 ∧ r.musichash = []) ∧
        ((w d.file).sumOpen = false ∨ (w d.file).sum.2 = true → r.musichash = []) := by
  refine ⟨process_length w tbl ds, ?_⟩
  intro i d hi
  refine ⟨processRecord w tbl d, ?_, ?_⟩
  · rw [process_getElem?, hi]; rfl
  · exact processRecord_descriptor w tbl d (hd d (List.getElem?_mem hi)) hsum

/-- Witness for C2: two descriptors, in a world where every step fails. -/
theorem process_forwards_one_record_per_descriptor_witness :
    (process failingWorld id
        [descriptor samplePath ".mp3".toList 10 20,
         descriptor samplePath ".ogg".toList 30 40]).length = 2 ∧
    ∀ (i : Nat) (d : record),
      [descriptor samplePath ".mp3".toList 10 20,
       descriptor samplePath ".ogg".toList 30 40][i]? = some d →
      ∃ r, (process failingWorld id
          [descriptor samplePath ".mp3".toList 10 20,
           descriptor samplePath ".ogg".toList 30 40])[i]? = some r ∧
        r.file = d.file ∧ r.ext = d.ext ∧ r.size = d.size ∧ r.mod = d.mod ∧
        ((failingWorld d.file).hashOpen = false ∨ (failingWorld d.file).hashCopy = none →
          r.md5 = []) ∧
        ((failingWorld d.file).metaOpen = false ∨ (failingWorld d.file).readFrom = none →
          r.format = [] ∧ r.filetype = [] ∧ r.title = [] ∧ r.album = [] ∧
          r.artist = [] ∧ r.albumartist = [] ∧ r.composer = [] ∧ r.genre = [] ∧
          r.year = 0 ∧ r.tracknbr = 0 ∧ r.tracktot = 0 ∧ r.disknbr = 0 ∧
          r.disktot = 0 ∧ r.musichash = []) ∧
        ((failingWorld d.file).sumOpen = false ∨ (failingWorld d.file).sum.2 = true →
          r.musichash = []) :=
  process_forwards_one_record_per_descriptor failingWorld id _
    (by decide) (by intro p _; rfl)

/-- Counterexample to C5: for a file whose tags parse with a recognized format
and file type, the genre of the forwarded record is the raw tag value, with
characters outside the sanitizer's alphabet. -/
theorem genre_not_sanitized :
    (processRecord sampleWorld id (descriptor samplePath ".mp3".toList 10 20)).format
      ≠ UnknownFormat ∧
    (processRecord sampleWorld id (descriptor samplePath ".mp3".toList 10 20)).filetype
      ≠ UnknownFileType ∧
    (processRecord sampleWorld id (descriptor samplePath ".mp3".toList 10 20)).genre
      = "Hip-Hop/Rap".toList ∧
    ¬ (∀ c ∈ (processRecord sampleWorld id
        (descriptor samplePath ".mp3".toList 10 20)).genre, c ∈ allowedChars) := by
  decide

/-- Claim C5, amended. For every file whose tags parse with a recognized format
and file type, the title, album, artist, album-artist and composer of the
forwarded record are the sanitized tag values, so they contain only ASCII
letters, digits and spaces; the genre is the raw tag value. -/
theorem meta_sanitizes_five_text_fields (w : World) (tbl : Char → Char) (r : record)
    (m : Metadata) (hext : stringsToLower tbl r.ext ≠ wmaExt)
    (hopen : (w r.file).metaOpen = true) (hread : (w r.file).readFrom = some m)
    (hfmt : m.format ≠ UnknownFormat) (hft : m.fileType ≠ UnknownFileType) :
    (processRecord w tbl r).title = clean m.title ∧
    (processRecord w tbl r).album = clean m.album ∧
    (processRecord w tbl r).artist = clean m.artist ∧
    (processRecord w tbl r).albumartist = clean m.albumArtist ∧
    (processRecord w tbl r).composer = clean m.composer ∧
    (∀ c ∈ (processRecord w tbl r).title, c ∈ allowedChars) ∧
    (∀ c ∈ (processRecord w tbl r).album, c ∈ allowedChars) ∧
    (∀ c ∈ (processRecord w tbl r).artist, c ∈ allowedChars) ∧
    (∀ c ∈ (processRecord w tbl r).albumartist, c ∈ allowedChars) ∧
    (∀ c ∈ (processRecord w tbl r).composer, c ∈ allowedChars) ∧
    (processRecord w tbl r).genre = m.genre := by
  have hf := hash_fields w r
  have key : (processRecord w tbl r).title = clean m.title ∧
      (processRecord w tbl r).album = clean m.album ∧
      (processRecord w tbl r).artist = clean m.artist ∧
      (processRecord w tbl r).albumartist = clean m.albumArtist ∧
      (processRecord w tbl r).composer = clean m.composer ∧
      (processRecord w tbl r).genre = m.genre := by
    unfold processRecord
    simp only [hf.2.1, hext, ne_eq, not_false_eq_true, if_true]
    unfold meta
    rw [hf.1]
    simp only [hopen, hread]
    simp [hfmt, hft, checksum]
    split_ifs <;> simp
  obtain ⟨h1, h2, h3, h4, h5, h6⟩ := key
  refine ⟨h1, h2, h3, h4, h5, ?_, ?_, ?_, ?_, ?_, h6⟩
  · rw [h1]; exact clean_mem_allowed _
  · rw [h2]; exact clean_mem_allowed _
  · rw [h3]; exact clean_mem_allowed _
  · rw [h4]; exact clean_mem_allowed _
  · rw [h5]; exact clean_mem_allowed _

/-- Witness for the amended C5, at the sample file. -/
theorem meta_sanitizes_five_text_fields_witness :
    (processRecord sampleWorld id (descriptor samplePath ".mp3".toList 10 20)).title
      = "Song A".toList ∧
    (processRecord sampleWorld id (descriptor samplePath ".mp3".toList 10 20)).album
      = "Pauls Boutique Explicit".toList ∧
    (processRecord sampleWorld id (descriptor samplePath ".mp3".toList 10 20)).genre
      = sampleTags.genre := by
  have h := meta_sanitizes_five_text_fields sampleWorld id
    (descriptor samplePath ".mp3".toList 10 20) sampleTags
    (by decide) (by decide) (by decide) (by decide) (by decide)
  refine ⟨?_, ?_, h.2.2.2.2.2.2.2.2.2.2⟩
  · rw [h.1]; decide
  · rw [h.2.1]; decide

/-- Claim C7. For every descriptor whose extension is `.wma` up to letter case,
`process` forwards a record whose format, file type, title, album, artist,
album-artist, composer and genre are empty, whose year, track number and total
and disk number and total are zero and whose audio checksum is empty, whatever
the file holds; the full-file hash step has run: the hash is the digest when
the file opened and was read, and empty otherwise. -/
theorem process_wma_skips_tags (w : World) (tbl : Char → Char)
    (file : Path) (ext : GoString) (size : Int) (mod : Time)
    (hext : stringsToLower tbl ext = wmaExt) :
    processRecord w tbl (descriptor file ext size mod) =
      hash w (descriptor file ext size mod) ∧
    (processRecord w tbl (descriptor file ext size mod)).format = [] ∧
    (processRecord w tbl (descriptor file ext size mod)).filetype = [] ∧
    (processRecord w tbl (descriptor file ext size mod)).title = [] ∧
    (processRecord w tbl (descriptor file ext size mod)).album = [] ∧
    (processRecord w tbl (descriptor file ext size mod)).artist = [] ∧
    (processRecord w tbl (descriptor file ext size mod)).albumartist = [] ∧
    (processRecord w tbl (descriptor file ext size mod)).composer = [] ∧
    (processRecord w tbl (descriptor file ext size mod)).genre = [] ∧
    (processRecord w tbl (descriptor file ext size mod)).year = 0 ∧
    (processRecord w tbl (descriptor file ext size mod)).tracknbr = 0 ∧
    (processRecord w tbl (descriptor file ext size mod)).tracktot = 0 ∧
    (processRecord w tbl (descriptor file ext size mod)).disknbr = 0 ∧
    (processRecord w tbl (descriptor file ext size mod)).disktot = 0 ∧
    (processRecord w tbl (descriptor file ext size mod)).musichash = [] ∧
    (processRecord w tbl (descriptor file ext size mod)).md5 =
      (if (w file).hashOpen = true then ((w file).hashCopy).getD [] else []) := by
  have hf := hash_fields w (descriptor file ext size mod)
  have hm := hash_md5 w (descriptor file ext size mod)
  have hp : processRecord w tbl (descriptor file ext size mod) =
      hash w (descriptor file ext size mod) := by
    unfold processRecord
    simp only [hf.2.1]
    simp [descriptor, hext]
  rw [hp]
  obtain ⟨_, _, _, _, h5, h6, h7, h8, h9, h10, h11, h12, h13, h14, h15, h16, h17, h18⟩ := hf
  refine ⟨rfl, h6, h7, h8, h9, h10, h11, h12, h13, h14, h15, h16, h17, h18, h5, ?_⟩
  rw [hm]
  simp only [descriptor]
  cases (w file).hashOpen <;> cases (w file).hashCopy <;> simp

/-- Witness for C7: the extension `.WMA` in the world where every call
succeeds. -/
theorem process_wma_skips_tags_witness :
    stringsToLower id ".WMA".toList = wmaExt ∧
    stringsToLower id ".Wma".toList = wmaExt ∧
    (processRecord sampleWorld id (descriptor samplePath ".WMA".toList 10 20)).title = [] ∧
    (processRecord sampleWorld id (descriptor samplePath ".WMA".toList 10 20)).musichash
      = [] ∧
    (processRecord sampleWorld id (descriptor samplePath ".WMA".toList 10 20)).md5
      = "D41D8CD98F00B204E9800998ECF8427E".toList := by
  have h := process_wma_skips_tags sampleWorld id samplePath ".WMA".toList 10 20 (by decide)
  refine ⟨by decide, by decide, h.2.2.2.1, h.2.2.2.2.2.2.2.2.2.2.2.2.2.2.1, ?_⟩
  rw [h.2.2.2.2.2.2.2.2.2.2.2.2.2.2.2]; rfl

/-! ## The scanner -/

theorem dotName_iff (n : GoString) : dotName n ↔ hasPrefix n ['.'] = true := Iff.rfl

theorem visit_mem (cwd : Option (List GoString)) (path : Path) (info : Option FileInfo)
    (err : Bool) (r : record) (h : r ∈ (visit cwd path info err).1) :
    ∃ i, info = some i ∧ i.isDir = false ∧ ¬ dotName i.name ∧ path.ext ∈ exts ∧
      filepathAbs cwd path = some r.file ∧
      r = descriptor r.file r.file.ext i.size i.modTime := by
  cases err
  swap
  · simp [visit] at h
  cases info with
  | none => simp [visit] at h
  | some i =>
    by_cases hd : i.isDir = true
    · by_cases hp : hasPrefix i.name ['.'] = true <;> simp [visit, hd, hp] at h
    by_cases hp : hasPrefix i.name ['.'] = true
    · simp [visit, hd, hp] at h
    by_cases he : path.ext ∈ exts
    swap
    · simp [visit, hd, hp, he] at h
    cases hab : filepathAbs cwd path with
    | none => simp [visit, hd, hp, he, hab] at h
    | some a =>
      simp [visit, hd, hp, he, hab] at h
      subst h
      refine ⟨i, rfl, by simpa using hd, by simpa [dotName_iff] using hp, he, ?_, ?_⟩
      · simp [descriptor]
      · simp [descriptor]

theorem visit_skipDir (cwd : Option (List GoString)) (path : Path) (info : Option FileInfo)
    (err : Bool) (h : (visit cwd path info err).2 = some .skipDir) :
    ∃ i, info = some i ∧ i.isDir = true ∧ dotName i.name := by
  cases err
  swap
  · simp [visit] at h
  cases info with
  | none => simp [visit] at h
  | some i =>
    by_cases hd : i.isDir = true
    · by_cases hp : hasPrefix i.name ['.'] = true
      · exact ⟨i, rfl, hd, hp⟩
      · simp [visit, hd, hp] at h
    by_cases hp : hasPrefix i.name ['.'] = true
    · simp [visit, hd, hp] at h
    by_cases he : path.ext ∈ exts
    swap
    · simp [visit, hd, hp, he] at h
    cases hab : filepathAbs cwd path <;> simp [visit, hd, hp, he, hab] at h

theorem visit_file_ok (cwd : Option (List GoString)) (path : Path) (n : GoString)
    (s : Int) (m : Time) (hdot : ¬ dotName n) (hext : path.ext ∈ exts)
    (hnil : (visit cwd path (some ⟨n, false, s, m⟩) false).2 = none) :
    ∃ a, filepathAbs cwd path = some a ∧
      (visit cwd path (some ⟨n, false, s, m⟩) false).1 = [descriptor a a.ext s m] := by
  rw [dotName_iff] at hdot
  cases hab : filepathAbs cwd path with
  | none => simp [visit, hdot, hext, hab] at hnil
  | some a => exact ⟨a, rfl, by simp [visit, hdot, hext, hab]⟩

theorem visit_file_skipped (cwd : Option (List GoString)) (path : Path) (n : GoString)
    (s : Int) (m : Time) (h : dotName n ∨ path.ext ∉ exts) :
    (visit cwd path (some ⟨n, false, s, m⟩) false).1 = [] := by
  rw [dotName_iff] at h
  rcases h with h | h
  · simp [visit, h]
  · by_cases hd : hasPrefix n ['.'] = true <;> simp [visit, hd, h]

theorem visit_dir (cwd : Option (List GoString)) (path : Path) (n : GoString)
    (s : Int) (m : Time) (err : Bool) :
    (visit cwd path (some ⟨n, true, s, m⟩) err).1 = [] ∧
    ((visit cwd path (some ⟨n, true, s, m⟩) err).2 = none → ¬ dotName n ∧ err = false) := by
  rw [dotName_iff]
  cases err
  · by_cases hp : hasPrefix n ['.'] = true <;> simp [visit, hp]
  · simp [visit]

theorem FileAt.names_eq {e : Entry} {names : List GoString} {s : Int} {m : Time}
    (h : FileAt e names s m) : ∃ t, names = e.name :: t := by
  cases h with
  | here n s m => exact ⟨[], rfl⟩
  | under n re cs c names s m hc hf => exact ⟨names, rfl⟩

theorem filePath_join (path : Path) (c : Entry) (names : List GoString) (n : GoString)
    (h : ∃ t, names = c.name :: t) :
    filePath (path.join c.name) names = filePath path (n :: names) := by
  obtain ⟨t, rfl⟩ := h
  simp [filePath, Path.join]

theorem walk_dir_eq (fn : WalkFunc) (path : Path) (n : GoString) (re : Bool)
    (cs : List Entry) :
    walk fn path (.dir n re cs) =
      if (re || (fn path (some ⟨n, true, 0, 0⟩) re).2.isSome) = true then
        fn path (some ⟨n, true, 0, 0⟩) re
      else
        ((fn path (some ⟨n, true, 0, 0⟩) re).1 ++ (walkNames fn path cs).1,
          (walkNames fn path cs).2) := by
  rw [walk]

theorem walkNames_cons_eq (fn : WalkFunc) (path : Path) (e : Entry) (rest : List Entry) :
    walkNames fn path (e :: rest) =
      if stopsAt e (walk fn (path.join e.name) e) = true then walk fn (path.join e.name) e
      else ((walk fn (path.join e.name) e).1 ++ (walkNames fn path rest).1,
        (walkNames fn path rest).2) := by
  rw [walkNames]

theorem walkNames_nil_eq (fn : WalkFunc) (path : Path) :
    walkNames fn path [] = ([], none) := by
  rw [walkNames]

theorem stopsAt_false_iff (e : Entry) (r : List record × Option WalkErr) :
    stopsAt e r = false ↔
      (r.2 = none ∨ (r.2 = some .skipDir ∧ (e.isDir = true ∨ ∃ n, e = .broken n))) := by
  rcases r with ⟨o, err⟩
  cases e <;> cases err with
  | none => simp [stopsAt, Entry.isDir]
  | some x => cases x <;> simp [stopsAt, Entry.isDir]

theorem walkNames_mem (fn : WalkFunc) (path : Path) (cs : List Entry) (r : record)
    (h : r ∈ (walkNames fn path cs).1) :
    ∃ c ∈ cs, r ∈ (walk fn (path.join c.name) c).1 := by
  induction cs with
  | nil => simp [walkNames_nil_eq] at h
  | cons e rest ih =>
    rw [walkNames_cons_eq] at h
    split_ifs at h with hs
    · exact ⟨e, List.mem_cons_self _ _, h⟩
    · simp only [List.mem_append] at h
      rcases h with h | h
      · exact ⟨e, List.mem_cons_self _ _, h⟩
      · obtain ⟨c, hc, hr⟩ := ih h
        exact ⟨c, List.mem_cons_of_mem _ hc, hr⟩

theorem walkNames_ok (fn : WalkFunc) (path : Path) (cs : List Entry)
    (h : (walkNames fn path cs).2 = none) (c : Entry) (hc : c ∈ cs) :
    stopsAt c (walk fn (path.join c.name) c) = false ∧
      ∀ r ∈ (walk fn (path.join c.name) c).1, r ∈ (walkNames fn path cs).1 := by
  induction cs with
  | nil => simp at hc
  | cons e rest ih =>
    rw [walkNames_cons_eq] at h ⊢
    by_cases hs : stopsAt e (walk fn (path.join e.name) e) = true
    · exfalso
      simp only [hs, if_true] at h
      have hf := hs
      cases e <;> simp [stopsAt, h] at hf
    · simp only [hs, if_false] at h ⊢
      rcases List.mem_cons.1 hc with rfl | hc'
      · exact ⟨by simpa using hs, fun r hr => List.mem_append_left _ hr⟩
      · obtain ⟨h1, h2⟩ := ih h hc'
        exact ⟨h1, fun r hr => List.mem_append_right _ (h2 r hr)⟩

mutual
theorem walk_skipDir (cwd : Option (List GoString)) (path : Path) (e : Entry)
    (h : (walk (visit cwd) path e).2 = some .skipDir) :
    e.isDir = true ∧ dotName e.name := by
  cases e with
  | file n s m =>
    rw [walk] at h
    obtain ⟨i, hi, hd, _⟩ := visit_skipDir _ _ _ _ h
    cases hi
    simp at hd
  | broken n =>
    rw [walk] at h
    obtain ⟨i, hi, _⟩ := visit_skipDir _ _ _ _ h
    cases hi
  | dir n re cs =>
    rw [walk_dir_eq] at h
    split_ifs at h with hc
    · obtain ⟨i, hi, _, hdot⟩ := visit_skipDir _ _ _ _ h
      cases hi
      exact ⟨rfl, hdot⟩
    · exact absurd h (walkNames_not_skipDir cwd path cs)
theorem walkNames_not_skipDir (cwd : Option (List GoString)) (path : Path)
    (cs : List Entry) : (walkNames (visit cwd) path cs).2 ≠ some .skipDir := by
  cases cs with
  | nil => simp [walkNames_nil_eq]
  | cons e rest =>
    rw [walkNames_cons_eq]
    split_ifs with hs
    · intro h
      have hd := walk_skipDir cwd (path.join e.name) e h
      cases e <;> simp [stopsAt, Entry.isDir, h] at hs hd
    · exact walkNames_not_skipDir cwd path rest
end

mutual
theorem walk_sound (cwd : Option (List GoString)) (path : Path) (e : Entry) (r : record)
    (h : r ∈ (walk (visit cwd) path e).1) : SentFor cwd path e r := by
  cases e with
  | file n s m =>
    rw [walk] at h
    obtain ⟨i, hi, _, hdot, hext, habs, hr⟩ := visit_mem _ _ _ _ _ h
    cases hi
    refine ⟨[n], s, m, FileAt.here n s m, ?_, ?_, ?_, hr⟩
    · intro x hx
      rw [List.mem_singleton.1 hx]
      exact hdot
    · simpa [filePath] using hext
    · simpa [filePath] using habs
  | broken n =>
    rw [walk] at h
    obtain ⟨i, hi, _⟩ := visit_mem _ _ _ _ _ h
    cases hi
  | dir n re cs =>
    rw [walk_dir_eq] at h
    have hv := visit_dir cwd path n 0 0 re
    split_ifs at h with hc
    · rw [hv.1] at h
      simp at h
    · rw [hv.1, List.nil_append] at h
      have hnone : (visit cwd path (some ⟨n, true, 0, 0⟩) re).2 = none := by
        cases hx : (visit cwd path (some ⟨n, true, 0, 0⟩) re).2 with
        | none => rfl
        | some x => simp [hx] at hc
      obtain ⟨c, hcm, names, s, m, hf, hdots, hext, habs, hr⟩ :=
        walkNames_sound cwd path cs r h
      have hj := filePath_join path c names n hf.names_eq
      refine ⟨n :: names, s, m, FileAt.under n re cs c names s m hcm hf, ?_, ?_, ?_, hr⟩
      · intro x hx
        rcases List.mem_cons.1 hx with rfl | hx
        · exact (hv.2 hnone).1
        · exact hdots x hx
      · rw [← hj]; exact hext
      · rw [← hj]; exact habs
theorem walkNames_sound (cwd : Option (List GoString)) (path : Path) (cs : List Entry)
    (r : record) (h : r ∈ (walkNames (visit cwd) path cs).1) :
    ∃ c ∈ cs, SentFor cwd (path.join c.name) c r := by
  cases cs with
  | nil => simp [walkNames_nil_eq] at h
  | cons e rest =>
    rw [walkNames_cons_eq] at h
    split_ifs at h with hs
    · exact ⟨e, List.mem_cons_self _ _, walk_sound cwd _ e r h⟩
    · rcases List.mem_append.1 h with h | h
      · exact ⟨e, List.mem_cons_self _ _, walk_sound cwd _ e r h⟩
      · obtain ⟨c, hc, hr⟩ := walkNames_sound cwd path rest r h
        exact ⟨c, List.mem_cons_of_mem _ hc, hr⟩
end

theorem walk_complete (cwd : Option (List GoString)) (e : Entry) (names : List GoString)
    (s : Int) (m : Time) (hf : FileAt e names s m) :
    ∀ path : Path, (walk (visit cwd) path e).2 = none → (∀ n ∈ names, ¬ dotName n) →
      (filePath path names).ext ∈ exts →
      ∃ a, filepathAbs cwd (filePath path names) = some a ∧
        descriptor a a.ext s m ∈ (walk (visit cwd) path e).1 := by
  induction hf with
  | here n s m =>
    intro path hnil hdots hext
    rw [walk] at hnil ⊢
    have hp : filePath path [n] = path := by simp [filePath]
    rw [hp] at hext ⊢
    obtain ⟨a, ha, hv⟩ := visit_file_ok cwd path n s m (hdots n (List.mem_singleton.2 rfl))
      hext hnil
    exact ⟨a, ha, by rw [hv]; exact List.mem_singleton.2 rfl⟩
  | under n re cs c names s m hc hf ih =>
    intro path hnil hdots hext
    rw [walk_dir_eq] at hnil ⊢
    have hv := visit_dir cwd path n 0 0 re
    by_cases hcnd : (re || (visit cwd path (some ⟨n, true, 0, 0⟩) re).2.isSome) = true
    · exfalso
      simp only [hcnd, if_true] at hnil
      have hre := (hv.2 hnil).2
      rw [hnil, hre] at hcnd
      simp at hcnd
    · simp only [hcnd] at hnil ⊢
      simp only [Bool.false_eq_true, if_false] at hnil ⊢
      obtain ⟨hstop, hsub⟩ := walkNames_ok (visit cwd) path cs hnil c hc
      obtain ⟨t, ht⟩ := hf.names_eq
      have hcdot : ¬ dotName c.name := by
        apply hdots
        rw [ht]
        simp
      have hcnil : (walk (visit cwd) (path.join c.name) c).2 = none := by
        rcases (stopsAt_false_iff _ _).1 hstop with h | ⟨h, _⟩
        · exact h
        · exact absurd (walk_skipDir cwd _ c h).2 hcdot
      have hj := filePath_join path c names n hf.names_eq
      obtain ⟨a, ha, hmem⟩ := ih (path.join c.name) hcnil
        (fun x hx => hdots x (List.mem_cons_of_mem _ hx)) (by rw [hj]; exact hext)
      refine ⟨a, by rw [← hj]; exact ha, ?_⟩
      exact List.mem_append_right _ (hsub _ hmem)

theorem filepathAbs_inj (cwd : Option (List GoString)) (root : Path)
    (n1 n2 : List GoString) (a : Path)
    (h1 : filepathAbs cwd (filePath root n1) = some a)
    (h2 : filepathAbs cwd (filePath root n2) = some a) : n1.tail = n2.tail := by
  unfold filepathAbs filePath at h1 h2
  by_cases hab : root.isAbs = true
  · simp only [hab, if_true, Option.some.injEq] at h1 h2
    have := congrArg Path.elems (h1.trans h2.symm)
    simpa using this
  · cases cwd with
    | none => simp [hab] at h1
    | some d =>
      simp only [hab, Option.some.injEq] at h1 h2
      simp only [Bool.false_eq_true, if_false, Option.some.injEq] at h1 h2
      have := congrArg Path.elems (h1.trans h2.symm)
      simpa using this

theorem find_eq_walk (cwd : Option (List GoString)) (root : Path) (e : Entry) :
    find cwd root e = (walk (visit cwd) root e).1 := by
  unfold find filepathWalk
  simp only
  split_ifs <;> rfl

/-- Whatever `find` sends for the file reached by `names` has passed the
checks of the callback. -/
theorem emitsFor_checked (cwd : Option (List GoString)) (root : Path) (e : Entry)
    (names : List GoString) (s : Int) (m : Time) (hf : FileAt e names s m)
    (h : emitsFor cwd root e names) :
    (filePath root names).ext ∈ exts ∧ ∀ n ∈ names, ¬ dotName n := by
  obtain ⟨r, hr, habs⟩ := h
  rw [find_eq_walk] at hr
  obtain ⟨names', s', m', hf', hdots, hext, habs', _⟩ := walk_sound cwd root e r hr
  have ht := filepathAbs_inj cwd root names names' r.file habs habs'
  obtain ⟨t, rfl⟩ := hf.names_eq
  obtain ⟨t', rfl⟩ := hf'.names_eq
  simp only [List.tail_cons] at ht
  subst ht
  exact ⟨hext, hdots⟩

theorem sampleTree_dotFile : FileAt sampleTree sampleDotFile 5 50 :=
  FileAt.under _ _ _ (.file ".e.mp3".toList 5 50) _ _ _ (by simp) (FileAt.here _ _ _)

theorem sampleTree_file : FileAt sampleTree sampleFile 1 10 :=
  FileAt.under _ _ _ (.file "a.mp3".toList 1 10) _ _ _ (by simp) (FileAt.here _ _ _)

theorem sampleTree_hiddenFile : FileAt sampleTree sampleHiddenFile 4 40 :=
  FileAt.under _ _ _ (.dir ".trash".toList false [.file "d.mp3".toList 4 40]) _ _ _
    (by simp)
    (FileAt.under _ _ _ (.file "d.mp3".toList 4 40) _ _ _ (by simp) (FileAt.here _ _ _))

/-- Counterexample to C1: the file `.e.mp3` stands directly under the root, its
extension is in the allow-list and it has no ancestor segment at all, the walk
succeeds, and `find` emits no record for it. -/
theorem find_skips_dot_file :
    FileAt sampleTree sampleDotFile 5 50 ∧
    (filepathWalk (visit none) sampleRoot sampleTree).2 = none ∧
    (filePath sampleRoot sampleDotFile).ext ∈ exts ∧
    (∀ n ∈ sampleDotFile.tail.dropLast, ¬ dotName n) ∧
    ¬ emitsFor none sampleRoot sampleTree sampleDotFile := by
  exact ⟨sampleTree_dotFile, by decide, by decide, by decide, by decide⟩

/-- Claim C1, amended. For every root tree and every file in it, when the walk
returns no error, `find` emits a record for the file if and only if the
extension of the file is in the allow-list and no name on the way from the root
to the file starts with a dot: not the name of the root itself, not an ancestor
segment, and not the name of the file. -/
theorem find_emits_iff_listed_and_no_dot_name (cwd : Option (List GoString)) (root : Path)
    (e : Entry) (names : List GoString) (s : Int) (m : Time)
    (hf : FileAt e names s m)
    (hok : (filepathWalk (visit cwd) root e).2 = none) :
    emitsFor cwd root e names ↔
      ((filePath root names).ext ∈ exts ∧ ∀ n ∈ names, ¬ dotName n) := by
  constructor
  · exact emitsFor_checked cwd root e names s m hf
  · rintro ⟨hext, hdots⟩
    have hnil : (walk (visit cwd) root e).2 = none := by
      unfold filepathWalk at hok
      simp only at hok
      split_ifs at hok with hs
      · exfalso
        obtain ⟨t, rfl⟩ := hf.names_eq
        exact hdots e.name (List.mem_cons_self _ _) (walk_skipDir cwd root e hs).2
      · exact hok
    obtain ⟨a, ha, hmem⟩ := walk_complete cwd e names s m hf root hnil hdots hext
    refine ⟨descriptor a a.ext s m, ?_, ?_⟩
    · rw [find_eq_walk]; exact hmem
    · rw [ha]; rfl

/-- Witness for the amended C1: the file `a.mp3` of the sample tree. -/
theorem find_emits_iff_listed_and_no_dot_name_witness :
    FileAt sampleTree sampleFile 1 10 ∧
    (filepathWalk (visit none) sampleRoot sampleTree).2 = none ∧
    (emitsFor none sampleRoot sampleTree sampleFile ↔
      ((filePath sampleRoot sampleFile).ext ∈ exts ∧ ∀ n ∈ sampleFile, ¬ dotName n)) :=
  ⟨sampleTree_file, by decide,
   find_emits_iff_listed_and_no_dot_name none sampleRoot sampleTree sampleFile 1 10
     sampleTree_file (by decide)⟩

/-- Claim C9. For every directory of a root tree whose name starts with a dot,
`find` emits no record for any file in the subtree of that directory, at any
depth and whatever the name or extension of the file (and whether or not the
walk meets an error). -/
theorem find_prunes_dot_directories (cwd : Option (List GoString)) (root : Path)
    (e : Entry) (names : List GoString) (s : Int) (m : Time)
    (hf : FileAt e names s m) (hdot : ∃ d ∈ names.dropLast, dotName d) :
    ¬ emitsFor cwd root e names := by
  intro h
  obtain ⟨d, hd, hdn⟩ := hdot
  exact (emitsFor_checked cwd root e names s m hf h).2 d (List.mem_of_mem_dropLast hd) hdn

/-- Witness for C9: the file `.trash/d.mp3` of the sample tree. -/
theorem find_prunes_dot_directories_witness :
    FileAt sampleTree sampleHiddenFile 4 40 ∧
    (∃ d ∈ sampleHiddenFile.dropLast, dotName d) ∧
    ¬ emitsFor none sampleRoot sampleTree sampleHiddenFile :=
  ⟨sampleTree_hiddenFile, by decide,
   find_prunes_dot_directories none sampleRoot sampleTree sampleHiddenFile 4 40
     sampleTree_hiddenFile (by decide)⟩

/-! ## The sink -/

theorem digitValue_digitChar (d : Nat) (h : d < 10) : digitValue (digitChar d) = some d := by
  interval_cases d <;> decide

theorem formatBits_value (fuel : Nat) :
    ∀ (n : Nat) (acc : List Char), n < fuel →
      ∃ k, ∀ a, natValue (formatBits fuel n acc) a = natValue acc (a * 10 ^ k + n) := by
  induction fuel with
  | zero => intro n acc h; omega
  | succ fuel ih =>
    intro n acc h
    by_cases h10 : n < 10
    · refine ⟨1, fun a => ?_⟩
      simp only [formatBits, h10, if_true, natValue, digitValue_digitChar n h10]
      congr 1
      omega
    · obtain ⟨k, hk⟩ := ih (n / 10) (digitChar (n % 10) :: acc) (by omega)
      refine ⟨k + 1, fun a => ?_⟩
      simp only [formatBits, h10, if_false]
      rw [hk]
      simp only [natValue, digitValue_digitChar (n % 10) (Nat.mod_lt _ (by omega))]
      congr 1
      rw [pow_succ]
      have := Nat.div_add_mod n 10
      nlinarith [Nat.div_add_mod n 10]

theorem natValue_natDecimal (n : Nat) : natValue (natDecimal n) 0 = some n := by
  obtain ⟨k, hk⟩ := formatBits_value (n + 1) n [] (by omega)
  unfold natDecimal
  rw [hk]
  simp [natValue]

theorem decimalValue_sprintfD (n : Int) : decimalValue (sprintfD n) = some n := by
  unfold sprintfD
  by_cases hn : n < 0
  · simp only [hn, if_true, decimalValue, natValue_natDecimal, Option.map_some']
    congr 1
    simp only [Int.ofNat_eq_coe]
    omega
  · simp only [hn, if_false]
    have hv := natValue_natDecimal n.natAbs
    cases hd : natDecimal n.natAbs with
    | nil =>
      rw [hd] at hv
      simp only [natValue, Option.some.injEq] at hv
      exfalso
      have h2 : formatBits (n.natAbs + 1) n.natAbs [] = [] := hd
      rw [← hv] at h2
      simp [formatBits] at h2
    | cons c ds =>
      rw [hd] at hv
      have hc : c ≠ '-' := by
        rintro rfl
        simp [natValue, digitValue] at hv
      simp only [decimalValue, hc, if_false, hv, Option.map_some']
      congr 1
      simp only [Int.ofNat_eq_coe]
      omega

theorem outLoop_eq (timeFormat : Time → GoString) (records : List record) :
    ∀ (nbr : Int) (rows : List (List GoString)),
      outLoop timeFormat records nbr rows =
        (nbr + records.length, rows ++ records.map (row timeFormat)) := by
  induction records with
  | nil => intro nbr rows; simp [outLoop]
  | cons r rest ih =>
    intro nbr rows
    rw [outLoop, ih]
    simp only [List.length_cons, List.map_cons, List.append_assoc, List.singleton_append,
      Prod.mk.injEq, and_true]
    push_cast
    ring

/-- Claim C8. For every sequence of records that arrives at the sink, `out`
writes exactly one row per record, in arrival order, and each row has exactly
19 columns in the order path, extension, size, modification time, full hash,
audio checksum, format, file type, title, album, album-artist, artist,
composer, genre, year, track number, track total, disk number, disk total; the
numeric columns are decimal numerals of the field values. -/
theorem out_writes_one_row_per_record (timeFormat : Time → GoString)
    (records : List record) :
    ∃ rows, out timeFormat true records = some ((records.length : Int), rows) ∧
      rows.length = records.length ∧
      (∀ (i : Nat) (r : record), records[i]? = some r →
        ∃ cols, rows[i]? = some cols ∧ cols.length = 19 ∧
          cols[0]? = some r.file.render ∧
          cols[1]? = some r.ext ∧
          cols[2]? = some (sprintfD r.size) ∧
          cols[3]? = some (timeFormat r.mod) ∧
          cols[4]? = some r.md5 ∧
          cols[5]? = some r.musichash ∧
          cols[6]? = some r.format ∧
          cols[7]? = some r.filetype ∧
          cols[8]? = some r.title ∧
          cols[9]? = some r.album ∧
          cols[10]? = some r.albumartist ∧
          cols[11]? = some r.artist ∧
          cols[12]? = some r.composer ∧
          cols[13]? = some r.genre ∧
          cols[14]? = some (sprintfD r.year) ∧
          cols[15]? = some (sprintfD r.tracknbr) ∧
          cols[16]? = some (sprintfD r.tracktot) ∧
          cols[17]? = some (sprintfD r.disknbr) ∧
          cols[18]? = some (sprintfD r.disktot)) ∧
      (∀ n : Int, decimalValue (sprintfD n) = some n) := by
  refine ⟨records.map (row timeFormat), ?_, by simp, ?_, decimalValue_sprintfD⟩
  · simp [out, outLoop_eq]
  · intro i r hi
    refine ⟨row timeFormat r, by simp [hi], ?_⟩
    simp [row]

/-- The rows written for a bare descriptor and for an enriched record. -/
theorem out_sample_rows :
    out sampleTimeFormat true
        [descriptor samplePath ".wma".toList 2 20,
         processRecord sampleWorld id (descriptor samplePath ".mp3".toList 10 20)] =
      some (2,
        [ ["C:\\music\\music1\\a.mp3".toList, ".wma".toList, "2".toList, "20".toList,
            [], [], [], [], [], [], [], [], [], [],
            "0".toList, "0".toList, "0".toList, "0".toList, "0".toList],
          ["C:\\music\\music1\\a.mp3".toList, ".mp3".toList, "10".toList, "20".toList,
            "D41D8CD98F00B204E9800998ECF8427E".toList,
            "da39a3ee5e6b4b0d3255bfef95601890afd80709".toList,
            "ID3v2.3".toList, "MP3".toList, "Song A".toList,
            "Pauls Boutique Explicit".toList, "Beastie Boys".toList,
            "Beastie Boys".toList, [], "Hip-Hop/Rap".toList,
            "1989".toList, "5".toList, "15".toList, "1".toList, "1".toList] ]) := by
  decide

/-! ## The pipeline -/

theorem sum_map_set {α : Type} (f : α → Nat) (l : List α) :
    ∀ (i : Nat) (x y : α), l[i]? = some x →
      ((l.set i y).map f).sum + f x = (l.map f).sum + f y := by
  induction l with
  | nil => intro i x y h; simp at h
  | cons a l ih =>
    intro i x y h
    cases i with
    | zero =>
      simp only [List.getElem?_cons_zero, Option.some.injEq] at h
      subst h
      simp only [List.set_cons_zero, List.map_cons, List.sum_cons]
      omega
    | succ i =>
      simp only [List.getElem?_cons_succ] at h
      have := ih i x y h
      simp only [List.set_cons_succ, List.map_cons, List.sum_cons]
      omega

theorem count_join_map (f : record → record) (x : record) (todos : List (List record)) :
    (todos.map fun t => (t.map f).count x).sum = ((todos.flatten).map f).count x := by
  induction todos with
  | nil => simp
  | cons t ts ih => simp [List.count_append, ih]

theorem sum_map_live_le (l : List ProcTask) : (l.map ProcTask.live).sum ≤ l.length := by
  induction l with
  | nil => simp
  | cons a l ih =>
    simp only [List.map_cons, List.sum_cons, List.length_cons]
    cases a <;> simp [ProcTask.live] <;> omega

theorem inv_init (w : World) (tbl : Char → Char) (created : Bool)
    (todos : List (List record)) : Inv w tbl created todos (Pipeline.init todos) := by
  refine ⟨rfl, ?_, ?_, by simp [Pipeline.init], by simp [Pipeline.init], ?_, ?_, ?_, ?_, ?_,
    ?_, ?_, ?_, ?_⟩
  · simp only [Pipeline.init, liveFinders, List.map_map]
    induction todos with
    | nil => rfl
    | cons t ts ih => simp [FindTask.live, ih]; omega
  · simp [Pipeline.init, liveWorkers, ProcTask.live]
  · simp [Pipeline.init, MainTask.rank]
  · simp [Pipeline.init, MainTask.rank]
  · simp [Pipeline.init, MainTask.rank]
  · simp [Pipeline.init, MainTask.rank]
  · simp [Pipeline.init]
  · simp [Pipeline.init]
  · simp [Pipeline.init]
  · simp [Pipeline.init]
  · intro x
    simp only [Pipeline.init, pendingCount, heldCount, List.map_map]
    have h := count_join_map (processRecord w tbl) x todos
    have h1 : (FindTask.pending w tbl x ∘ FindTask.sending) =
        fun t => (t.map (processRecord w tbl)).count x := rfl
    rw [h1, h]
    simp [ProcTask.holds, ProcTask.held]

theorem pending_exited (w : World) (tbl : Char → Char) (x : record) :
    FindTask.pending w tbl x .exited = 0 := rfl

theorem pending_nil (w : World) (tbl : Char → Char) (x : record) :
    FindTask.pending w tbl x (.sending []) = 0 := rfl

theorem pending_cons (w : World) (tbl : Char → Char) (x r : record) (rest : List record) :
    FindTask.pending w tbl x (.sending (r :: rest)) =
      FindTask.pending w tbl x (.sending rest) + [processRecord w tbl r].count x := by
  simp [FindTask.pending, FindTask.todo, List.count_cons]

theorem holds_sending (x r : record) : ProcTask.holds x (.sending r) = [r].count x := rfl

theorem holds_receiving (x : record) : ProcTask.holds x .receiving = 0 := rfl

theorem holds_exited (x : record) : ProcTask.holds x .exited = 0 := rfl

theorem count_snoc (x r : record) (l : List record) :
    (l ++ [r]).count x = l.count x + [r].count x := by
  simp [List.count_append]

theorem count_cons_singleton (x r : record) (l : List record) :
    (r :: l).count x = l.count x + [r].count x := by
  simp [List.count_cons]

theorem inv_stepFind (w : World) (tbl : Char → Char) (created : Bool)
    (todos : List (List record)) (s s' : Pipeline) (i : Nat)
    (hI : Inv w tbl created todos s) (h : stepFind s i = some s') :
    Inv w tbl created todos s' := by
  unfold stepFind at h
  cases hf : s.finders[i]? with
  | none => simp [hf] at h
  | some t =>
    cases t with
    | exited => simp [hf] at h
    | sending todo =>
      have hlive : 1 ≤ liveFinders s := by
        have := sum_map_set FindTask.live s.finders i _ FindTask.exited hf
        simp only [FindTask.live] at this
        unfold liveFinders
        omega
      have hrank : s.mainTask.rank = 0 := by
        by_contra hne
        have := hI.finders_done (by omega)
        have := hI.wg1_eq
        omega
      have hopen : s.records1.closed = false := by
        cases hc : s.records1.closed with
        | false => rfl
        | true => have := hI.closed1_iff.1 hc; omega
      cases todo with
      | nil =>
        simp only [hf] at h
        have hwg : s.wg1 ≠ 0 := by have := hI.wg1_eq; omega
        simp only [hwg, if_false, Option.some.injEq] at h
        subst h
        have hset := sum_map_set FindTask.live s.finders i _ FindTask.exited hf
        simp only [FindTask.live] at hset
        refine ⟨hI.noPanic, ?_, hI.wg2_eq, hI.nworkers, hI.wg2_le, hI.closed1_iff,
          hI.closed2_iff, ?_, hI.workers_done, hI.worker_exit, hI.out_done, hI.out_exited,
          hI.out_failed, ?_⟩
        · have := hI.wg1_eq
          simp only [liveFinders] at this ⊢
          omega
        · intro h1
          simp only at h1
          omega
        · intro x
          have hp := sum_map_set (FindTask.pending w tbl x) s.finders i _ FindTask.exited hf
          rw [pending_exited, pending_nil] at hp
          have := hI.conserve x
          simp only [pendingCount, heldCount] at this ⊢
          omega
      | cons r rest =>
        simp only [hf, hopen] at h
        by_cases hcap : s.records1.buf.length < chanCap
        · simp only [hcap, if_true, Bool.false_eq_true, if_false, Option.some.injEq] at h
          subst h
          have hset := sum_map_set FindTask.live s.finders i _ (FindTask.sending rest) hf
          simp only [FindTask.live] at hset
          refine ⟨hI.noPanic, ?_, hI.wg2_eq, hI.nworkers, hI.wg2_le,
            by simpa [hopen] using hI.closed1_iff,
            hI.closed2_iff, hI.finders_done, hI.workers_done, ?_, hI.out_done,
            hI.out_exited, hI.out_failed, ?_⟩
          · have := hI.wg1_eq
            simp only [liveFinders] at this ⊢
            omega
          · intro hlt
            have := (hI.worker_exit hlt).1
            simp [hopen] at this
          · intro x
            have hp := sum_map_set (FindTask.pending w tbl x) s.finders i _
              (FindTask.sending rest) hf
            rw [pending_cons] at hp
            have := hI.conserve x
            simp only [pendingCount, heldCount, List.map_append, List.map_cons, List.map_nil,
              count_snoc] at this ⊢
            omega
        · simp [hcap] at h

theorem inv_stepProc (w : World) (tbl : Char → Char) (created : Bool)
    (todos : List (List record)) (s s' : Pipeline) (j : Nat)
    (hI : Inv w tbl created todos s) (h : stepProc w tbl s j = some s') :
    Inv w tbl created todos s' := by
  unfold stepProc at h
  cases hf : s.workers[j]? with
  | none => simp [hf] at h
  | some t =>
    have hlive : t ≠ .exited → 1 ≤ s.wg2 := by
      intro hne
      have := sum_map_set ProcTask.live s.workers j _ ProcTask.exited hf
      have h1 : t.live = 1 := by cases t <;> simp_all [ProcTask.live]
      have := hI.wg2_eq
      simp only [ProcTask.live, liveWorkers] at *
      omega
    cases t with
    | exited => simp [hf] at h
    | receiving =>
      have hwg := hlive (by simp)
      simp only [hf] at h
      cases hb : s.records1.buf with
      | nil =>
        simp only [hb] at h
        cases hc : s.records1.closed with
        | false => simp [hc] at h
        | true =>
          have hwg0 : s.wg2 ≠ 0 := by omega
          simp only [hc, if_true, hwg0, if_false, Option.some.injEq] at h
          subst h
          have hset := sum_map_set ProcTask.live s.workers j _ ProcTask.exited hf
          simp only [ProcTask.live] at hset
          refine ⟨hI.noPanic, hI.wg1_eq, ?_, by simpa using hI.nworkers, ?_, hI.closed1_iff,
            hI.closed2_iff, hI.finders_done, ?_, ?_, hI.out_done, hI.out_exited,
            hI.out_failed, ?_⟩
          · have := hI.wg2_eq
            simp only [liveWorkers] at this ⊢
            omega
          · have := hI.wg2_le
            simp only
            omega
          · intro h3
            have := hI.workers_done h3
            simp only
            omega
          · intro _
            exact ⟨hc, hb⟩
          · intro x
            have hp := sum_map_set (ProcTask.holds x) s.workers j _ ProcTask.exited hf
            rw [holds_exited, holds_receiving] at hp
            have := hI.conserve x
            simp only [pendingCount, heldCount] at this ⊢
            omega
      | cons r rest =>
        simp only [hb, Option.some.injEq] at h
        subst h
        have hset := sum_map_set ProcTask.live s.workers j _
          (ProcTask.sending (processRecord w tbl r)) hf
        simp only [ProcTask.live] at hset
        have hfull : ¬ s.wg2 < nWorkers := by
          intro hlt
          have := (hI.worker_exit hlt).2
          simp [hb] at this
        refine ⟨hI.noPanic, hI.wg1_eq, ?_, by simpa using hI.nworkers, hI.wg2_le,
          hI.closed1_iff, hI.closed2_iff, hI.finders_done, hI.workers_done, ?_, hI.out_done,
          hI.out_exited, hI.out_failed, ?_⟩
        · have := hI.wg2_eq
          simp only [liveWorkers] at this ⊢
          omega
        · intro hlt
          exact absurd hlt hfull
        · intro x
          have hp := sum_map_set (ProcTask.holds x) s.workers j _
            (ProcTask.sending (processRecord w tbl r)) hf
          rw [holds_sending, holds_receiving] at hp
          have := hI.conserve x
          simp only [pendingCount, heldCount, hb, List.map_cons] at this ⊢
          rw [count_cons_singleton] at this
          omega
    | sending r =>
      have hwg := hlive (by simp)
      have hopen : s.records2.closed = false := by
        cases hc : s.records2.closed with
        | false => rfl
        | true =>
          have := hI.workers_done (by have := hI.closed2_iff.1 hc; omega)
          omega
      simp only [hf, hopen] at h
      by_cases hcap : s.records2.buf.length < chanCap
      · simp only [hcap, if_true, Bool.false_eq_true, if_false, Option.some.injEq] at h
        subst h
        have hset := sum_map_set ProcTask.live s.workers j _ ProcTask.receiving hf
        simp only [ProcTask.live] at hset
        refine ⟨hI.noPanic, hI.wg1_eq, ?_, by simpa using hI.nworkers, hI.wg2_le,
          hI.closed1_iff, by simpa [hopen] using hI.closed2_iff, hI.finders_done,
          hI.workers_done, hI.worker_exit, ?_, hI.out_exited, hI.out_failed, ?_⟩
        · have := hI.wg2_eq
          simp only [liveWorkers] at this ⊢
          omega
        · intro hc ho
          have := (hI.out_done hc ho).1
          simp [hopen] at this
        · intro x
          have hp := sum_map_set (ProcTask.holds x) s.workers j _ ProcTask.receiving hf
          rw [holds_sending, holds_receiving] at hp
          have := hI.conserve x
          simp only [pendingCount, heldCount, count_snoc] at this ⊢
          omega
      · simp [hcap] at h

theorem inv_stepOut (w : World) (tbl : Char → Char) (created : Bool)
    (todos : List (List record)) (s s' : Pipeline)
    (hI : Inv w tbl created todos s) (h : stepOut created s = some s') :
    Inv w tbl created todos s' := by
  unfold stepOut at h
  have hex := hI.out_exited
  cases ho : s.outTask with
  | creating =>
    simp only [ho] at h hex
    cases created with
    | true =>
      simp only [if_true, Option.some.injEq] at h
      subst h
      refine ⟨hI.noPanic, hI.wg1_eq, hI.wg2_eq, hI.nworkers, hI.wg2_le, hI.closed1_iff,
        hI.closed2_iff, hI.finders_done, hI.workers_done, hI.worker_exit, ?_, ?_, ?_,
        hI.conserve⟩
      · intro _ hh; simp at hh
      · simpa using hex
      · intro hh; simp at hh
    | false =>
      simp only [Bool.false_eq_true, if_false, Option.some.injEq] at h
      subst h
      refine ⟨hI.noPanic, hI.wg1_eq, hI.wg2_eq, hI.nworkers, hI.wg2_le, hI.closed1_iff,
        hI.closed2_iff, hI.finders_done, hI.workers_done, hI.worker_exit, ?_, ?_, ?_,
        hI.conserve⟩
      · intro hh; simp at hh
      · simpa using hex
      · intro _
        exact ⟨by simp, (hI.out_failed rfl).2⟩
  | receiving =>
    simp only [ho] at h hex
    have hcr : created = true := by
      cases hc : created with
      | true => rfl
      | false => exact absurd ho (hI.out_failed hc).1
    cases hb : s.records2.buf with
    | nil =>
      simp only [hb] at h
      cases hc : s.records2.closed with
      | false => simp [hc] at h
      | true =>
        simp only [hc, if_true, Option.some.injEq] at h
        subst h
        refine ⟨hI.noPanic, hI.wg1_eq, hI.wg2_eq, hI.nworkers, hI.wg2_le, hI.closed1_iff,
          hI.closed2_iff, hI.finders_done, hI.workers_done, hI.worker_exit, ?_, ?_, ?_,
          hI.conserve⟩
        · intro _ _; exact ⟨hc, hb⟩
        · simpa using hex
        · intro hh; rw [hcr] at hh; simp at hh
    | cons r rest =>
      simp only [hb, Option.some.injEq] at h
      subst h
      refine ⟨hI.noPanic, hI.wg1_eq, hI.wg2_eq, hI.nworkers, hI.wg2_le, hI.closed1_iff,
        hI.closed2_iff, hI.finders_done, hI.workers_done, hI.worker_exit, ?_, ?_, ?_, ?_⟩
      · intro _ hh; simp [ho] at hh
      · simpa [ho] using hex
      · intro hh; rw [hcr] at hh; simp at hh
      · intro x
        have := hI.conserve x
        simp only [pendingCount, heldCount, hb, count_snoc] at this ⊢
        rw [count_cons_singleton] at this
        omega
  | signalling => simp [ho] at h
  | exited => simp [ho] at h

theorem inv_stepMain (w : World) (tbl : Char → Char) (created : Bool)
    (todos : List (List record)) (s s' : Pipeline)
    (hI : Inv w tbl created todos s) (h : stepMain s = some s') :
    Inv w tbl created todos s' := by
  unfold stepMain at h
  have hc1 := hI.closed1_iff
  have hc2 := hI.closed2_iff
  have hfd := hI.finders_done
  have hwd := hI.workers_done
  have hex := hI.out_exited
  cases hm : s.mainTask with
  | waitFinders =>
    simp only [hm, MainTask.rank] at h hc1 hc2 hfd hwd hex
    by_cases hz : s.wg1 = 0
    · rw [if_pos hz] at h
      simp only [Option.some.injEq] at h
      subst h
      refine ⟨hI.noPanic, hI.wg1_eq, hI.wg2_eq, hI.nworkers, hI.wg2_le, ?_, ?_, ?_, ?_,
        hI.worker_exit, hI.out_done, ?_, hI.out_failed, hI.conserve⟩
      · simpa [MainTask.rank] using hc1
      · simpa [MainTask.rank] using hc2
      · intro _; exact hz
      · simp [MainTask.rank]
      · simpa using hex
    · simp [hz] at h
  | closeRecords1 =>
    simp only [hm, MainTask.rank] at h hc1 hc2 hfd hwd hex
    have hopen : s.records1.closed = false := by
      cases hc : s.records1.closed with
      | false => rfl
      | true => have := hc1.1 hc; omega
    simp only [hopen, Bool.false_eq_true, if_false, Option.some.injEq] at h
    subst h
    refine ⟨hI.noPanic, hI.wg1_eq, hI.wg2_eq, hI.nworkers, hI.wg2_le, ?_, ?_, ?_, ?_,
      ?_, hI.out_done, ?_, hI.out_failed, hI.conserve⟩
    · simp [MainTask.rank]
    · simpa [MainTask.rank] using hc2
    · intro _; exact hfd (by omega)
    · simp [MainTask.rank]
    · intro hlt
      have := (hI.worker_exit hlt).1
      simp [hopen] at this
    · simpa using hex
  | waitWorkers =>
    simp only [hm, MainTask.rank] at h hc1 hc2 hfd hwd hex
    by_cases hz : s.wg2 = 0
    · rw [if_pos hz] at h
      simp only [Option.some.injEq] at h
      subst h
      refine ⟨hI.noPanic, hI.wg1_eq, hI.wg2_eq, hI.nworkers, hI.wg2_le, ?_, ?_, ?_, ?_,
        hI.worker_exit, hI.out_done, ?_, hI.out_failed, hI.conserve⟩
      · simpa [MainTask.rank] using hc1
      · simpa [MainTask.rank] using hc2
      · intro _; exact hfd (by omega)
      · intro _; exact hz
      · simpa using hex
    · simp [hz] at h
  | closeRecords2 =>
    simp only [hm, MainTask.rank] at h hc1 hc2 hfd hwd hex
    have hopen : s.records2.closed = false := by
      cases hc : s.records2.closed with
      | false => rfl
      | true => have := hc2.1 hc; omega
    simp only [hopen, Bool.false_eq_true, if_false, Option.some.injEq] at h
    subst h
    refine ⟨hI.noPanic, hI.wg1_eq, hI.wg2_eq, hI.nworkers, hI.wg2_le, ?_, ?_, ?_, ?_,
      hI.worker_exit, ?_, ?_, hI.out_failed, hI.conserve⟩
    · simpa [MainTask.rank] using hc1
    · simp [MainTask.rank]
    · intro _; exact hfd (by omega)
    · intro _; exact hwd (by omega)
    · intro hc ho
      have := (hI.out_done hc ho).1
      simp [hopen] at this
    · simpa using hex
  | waitDone =>
    simp only [hm, MainTask.rank] at h hc1 hc2 hfd hwd hex
    by_cases ho : s.outTask = .signalling
    · simp only [ho, if_true, Option.some.injEq] at h
      subst h
      refine ⟨hI.noPanic, hI.wg1_eq, hI.wg2_eq, hI.nworkers, hI.wg2_le, ?_, ?_, ?_, ?_,
        hI.worker_exit, ?_, ?_, ?_, hI.conserve⟩
      · simpa [MainTask.rank] using hc1
      · simpa [MainTask.rank] using hc2
      · intro _; exact hfd (by omega)
      · intro _; exact hwd (by omega)
      · intro hc _
        exact hI.out_done hc (Or.inl ho)
      · simp
      · intro hc
        exact ⟨by simp, (hI.out_failed hc).2⟩
    · simp [ho] at h
  | finished => simp [hm] at h

theorem inv_step (w : World) (tbl : Char → Char) (created : Bool)
    (todos : List (List record)) (s s' : Pipeline) (a : Action)
    (hI : Inv w tbl created todos s) (h : step w tbl created s a = some s') :
    Inv w tbl created todos s' := by
  cases a with
  | find i =>
    simp only [step] at h
    split_ifs at h
    exact inv_stepFind w tbl created todos s s' i hI h
  | proc j =>
    simp only [step] at h
    split_ifs at h
    exact inv_stepProc w tbl created todos s s' j hI h
  | out =>
    simp only [step] at h
    split_ifs at h
    exact inv_stepOut w tbl created todos s s' hI h
  | main =>
    simp only [step] at h
    split_ifs at h
    exact inv_stepMain w tbl created todos s s' hI h

theorem inv_reachable (w : World) (tbl : Char → Char) (created : Bool)
    (todos : List (List record)) (s : Pipeline)
    (h : Reachable w tbl created todos s) : Inv w tbl created todos s := by
  induction h with
  | init => exact inv_init w tbl created todos
  | step s s' a _ hs ih => exact inv_step w tbl created todos s s' a ih hs

theorem run_reachable (w : World) (tbl : Char → Char) (created : Bool)
    (todos : List (List record)) (sched : List Action) :
    ∀ s s', Reachable w tbl created todos s → run w tbl created s sched = some s' →
      Reachable w tbl created todos s' := by
  induction sched with
  | nil =>
    intro s s' hr h
    simp only [run, Option.some.injEq] at h
    exact h ▸ hr
  | cons a rest ih =>
    intro s s' hr h
    simp only [run] at h
    cases hs : step w tbl created s a with
    | none => simp [hs] at h
    | some s1 =>
      simp only [hs] at h
      exact ih s1 s' (Reachable.step s s1 a hr hs) h

theorem live_zero_finders (l : List FindTask) (h : (l.map FindTask.live).sum = 0) :
    ∀ t ∈ l, t = FindTask.exited := by
  induction l with
  | nil => simp
  | cons a l ih =>
    simp only [List.map_cons, List.sum_cons] at h
    intro t ht
    rcases List.mem_cons.1 ht with rfl | ht
    · cases t with
      | exited => rfl
      | sending todo => simp [FindTask.live] at h
    · exact ih (by omega) t ht

theorem live_zero_workers (l : List ProcTask) (h : (l.map ProcTask.live).sum = 0) :
    ∀ t ∈ l, t = ProcTask.exited := by
  induction l with
  | nil => simp
  | cons a l ih =>
    simp only [List.map_cons, List.sum_cons] at h
    intro t ht
    rcases List.mem_cons.1 ht with rfl | ht
    · cases t <;> simp [ProcTask.live] at h ⊢
    · exact ih (by omega) t ht

theorem pending_zero (w : World) (tbl : Char → Char) (x : record) (l : List FindTask)
    (h : ∀ t ∈ l, t = FindTask.exited) : (l.map (FindTask.pending w tbl x)).sum = 0 := by
  induction l with
  | nil => rfl
  | cons a l ih =>
    simp only [List.map_cons, List.sum_cons]
    rw [ih (fun t ht => h t (List.mem_cons_of_mem _ ht)), h a (List.mem_cons_self _ _)]
    rfl

theorem holds_zero (x : record) (l : List ProcTask)
    (h : ∀ t ∈ l, t = ProcTask.exited) : (l.map (ProcTask.holds x)).sum = 0 := by
  induction l with
  | nil => rfl
  | cons a l ih =>
    simp only [List.map_cons, List.sum_cons]
    rw [ih (fun t ht => h t (List.mem_cons_of_mem _ ht)), h a (List.mem_cons_self _ _)]
    rfl

theorem stuck_sound (w : World) (tbl : Char → Char) (created : Bool) (s : Pipeline)
    (h : stuck w tbl created s = true) : ∀ a, step w tbl created s a = none := by
  intro a
  unfold stuck at h
  rw [List.all_eq_true] at h
  by_cases ha : a ∈ candidates s
  · simpa using h a ha
  · cases a with
    | find i =>
      have hi : ¬ i < s.finders.length := by
        intro hlt
        exact ha (by simp [candidates, hlt])
      have hn : s.finders[i]? = none := List.getElem?_eq_none (by omega)
      simp only [step, stepFind, hn]
      split_ifs <;> rfl
    | proc j =>
      have hj : ¬ j < s.workers.length := by
        intro hlt
        exact ha (by simp [candidates, hlt])
      have hn : s.workers[j]? = none := List.getElem?_eq_none (by omega)
      simp only [step, stepProc, hn]
      split_ifs <;> rfl
    | out => exact absurd (by simp [candidates]) ha
    | main => exact absurd (by simp [candidates]) ha

set_option maxRecDepth 100000 in
theorem lostSchedule_runs :
    (run sampleWorld id false (Pipeline.init oneRecord) lostSchedule).map
      (fun s => decide (s.mainTask = .finished ∧ s.rows = [] ∧ s.records2.buf.length = 1))
      = some true := by
  decide

set_option maxRecDepth 100000 in
theorem stuckSchedule_runs :
    (run sampleWorld id false (Pipeline.init manyRecords) stuckSchedule).map
      (fun s => decide (s.outTask = .signalling ∧ s.mainTask = .waitFinders) &&
        stuck sampleWorld id false s) = some true := by
  decide

theorem exists_live_finder (l : List FindTask) (h : 1 ≤ (l.map FindTask.live).sum) :
    ∃ (i : Nat) (todo : List record), l[i]? = some (FindTask.sending todo) := by
  induction l with
  | nil => simp at h
  | cons a l ih =>
    cases a with
    | sending todo => exact ⟨0, todo, by simp⟩
    | exited =>
      simp only [List.map_cons, List.sum_cons, FindTask.live, Nat.zero_add] at h
      obtain ⟨i, todo, hi⟩ := ih h
      refine ⟨i + 1, todo, ?_⟩
      simpa using hi

theorem exists_live_worker (l : List ProcTask) (h : 1 ≤ (l.map ProcTask.live).sum) :
    ∃ (j : Nat) (t : ProcTask), l[j]? = some t ∧ t ≠ ProcTask.exited := by
  induction l with
  | nil => simp at h
  | cons a l ih =>
    cases a with
    | receiving => exact ⟨0, .receiving, by simp, by simp⟩
    | sending r => exact ⟨0, .sending r, by simp, by simp⟩
    | exited =>
      simp only [List.map_cons, List.sum_cons, ProcTask.live, Nat.zero_add] at h
      obtain ⟨j, t, hj, ht⟩ := ih h
      refine ⟨j + 1, t, ?_, ht⟩
      simpa using hj

theorem exited_worker_lt (l : List ProcTask) (j : Nat) (h : l[j]? = some ProcTask.exited) :
    (l.map ProcTask.live).sum < l.length := by
  have h1 := sum_map_set ProcTask.live l j _ ProcTask.receiving h
  have h2 := sum_map_live_le (l.set j ProcTask.receiving)
  simp only [ProcTask.live, List.length_set] at h1 h2
  omega

theorem step_find_eq (w : World) (tbl : Char → Char) (created : Bool) (s : Pipeline)
    (i : Nat) (hp : s.panicked = false) (hm : s.mainTask ≠ .finished) :
    step w tbl created s (.find i) = stepFind s i := by
  simp [step, hp, hm]

theorem step_proc_eq (w : World) (tbl : Char → Char) (created : Bool) (s : Pipeline)
    (j : Nat) (hp : s.panicked = false) (hm : s.mainTask ≠ .finished) :
    step w tbl created s (.proc j) = stepProc w tbl s j := by
  simp [step, hp, hm]

theorem step_out_eq (w : World) (tbl : Char → Char) (created : Bool) (s : Pipeline)
    (hp : s.panicked = false) (hm : s.mainTask ≠ .finished) :
    step w tbl created s .out = stepOut created s := by
  simp [step, hp, hm]

theorem step_main_eq (w : World) (tbl : Char → Char) (created : Bool) (s : Pipeline)
    (hp : s.panicked = false) (hm : s.mainTask ≠ .finished) :
    step w tbl created s .main = stepMain s := by
  simp [step, hp, hm]

/-- A live worker can move as soon as the first queue holds a record or is
closed, and the second queue is open and not full. -/
theorem worker_can_move (w : World) (tbl : Char → Char) (s : Pipeline) (j : Nat)
    (t : ProcTask) (hj : s.workers[j]? = some t) (ht : t ≠ .exited)
    (hwg : s.wg2 ≠ 0)
    (h1 : s.records1.buf ≠ [] ∨ s.records1.closed = true)
    (h2 : s.records2.closed = false ∧ s.records2.buf.length < chanCap) :
    ∃ s', stepProc w tbl s j = some s' := by
  unfold stepProc
  cases t with
  | exited => exact absurd rfl ht
  | receiving =>
    simp only [hj]
    cases hb : s.records1.buf with
    | cons r rest => exact ⟨_, rfl⟩
    | nil =>
      rcases h1 with h1 | h1
      · exact absurd hb h1
      · simp only [h1, if_true, hwg, if_false]
        exact ⟨_, rfl⟩
  | sending r =>
    simp only [hj, h2.1, h2.2, if_true, Bool.false_eq_true, if_false]
    exact ⟨_, rfl⟩

/-- With the output created, the pipeline is never stuck before `main` has
finished. -/
theorem progress (w : World) (tbl : Char → Char) (todos : List (List record))
    (s : Pipeline) (hI : Inv w tbl true todos s) (hm : s.mainTask ≠ .finished) :
    ∃ a s', step w tbl true s a = some s' := by
  have hp := hI.noPanic
  have hmain : (∃ s', stepMain s = some s') → ∃ a s', step w tbl true s a = some s' := by
    rintro ⟨s', h⟩
    exact ⟨.main, s', by rw [step_main_eq w tbl true s hp hm]; exact h⟩
  have hout : (∃ s', stepOut true s = some s') → ∃ a s', step w tbl true s a = some s' := by
    rintro ⟨s', h⟩
    exact ⟨.out, s', by rw [step_out_eq w tbl true s hp hm]; exact h⟩
  have hproc : ∀ j, (∃ s', stepProc w tbl s j = some s') →
      ∃ a s', step w tbl true s a = some s' := by
    rintro j ⟨s', h⟩
    exact ⟨.proc j, s', by rw [step_proc_eq w tbl true s j hp hm]; exact h⟩
  have hfind : ∀ i, (∃ s', stepFind s i = some s') →
      ∃ a s', step w tbl true s a = some s' := by
    rintro i ⟨s', h⟩
    exact ⟨.find i, s', by rw [step_find_eq w tbl true s i hp hm]; exact h⟩
  have hc1 := hI.closed1_iff
  have hc2 := hI.closed2_iff
  cases ho : s.outTask with
  | creating => exact hout (by simp [stepOut, ho])
  | exited => exact absurd (hI.out_exited.1 ho) hm
  | signalling =>
    have hcl := (hI.out_done rfl (Or.inl ho)).1
    have hr := hc2.1 hcl
    cases hmt : s.mainTask with
    | finished => exact absurd hmt hm
    | waitDone => exact hmain (by simp [stepMain, hmt, ho])
    | waitFinders => simp [hmt, MainTask.rank] at hr
    | closeRecords1 => simp [hmt, MainTask.rank] at hr
    | waitWorkers => simp [hmt, MainTask.rank] at hr
    | closeRecords2 => simp [hmt, MainTask.rank] at hr
  | receiving =>
    cases hb2 : s.records2.buf with
    | cons r rest => exact hout (by simp [stepOut, ho, hb2])
    | nil =>
      cases hcl2 : s.records2.closed with
      | true => exact hout (by simp [stepOut, ho, hb2, hcl2])
      | false =>
        have h2 : s.records2.closed = false ∧ s.records2.buf.length < chanCap :=
          ⟨hcl2, by simp [hb2, chanCap]⟩
        cases hmt : s.mainTask with
        | finished => exact absurd hmt hm
        | waitDone =>
          have := hc2.2 (by simp [hmt, MainTask.rank])
          simp [hcl2] at this
        | closeRecords2 => exact hmain (by simp [stepMain, hmt, hcl2])
        | closeRecords1 =>
          have hopen : s.records1.closed = false := by
            cases hc : s.records1.closed with
            | false => rfl
            | true => have := hc1.1 hc; simp [hmt, MainTask.rank] at this
          exact hmain (by simp [stepMain, hmt, hopen])
        | waitWorkers =>
          by_cases hz : s.wg2 = 0
          · exact hmain (by simp [stepMain, hmt, hz])
          · have hl : 1 ≤ (s.workers.map ProcTask.live).sum := by
              have := hI.wg2_eq
              simp only [liveWorkers] at this
              omega
            obtain ⟨j, t, hj, ht⟩ := exists_live_worker _ hl
            have hcl1 : s.records1.closed = true := hc1.2 (by simp [hmt, MainTask.rank])
            exact hproc j (worker_can_move w tbl s j t hj ht hz (Or.inr hcl1) h2)
        | waitFinders =>
          by_cases hz : s.wg1 = 0
          · exact hmain (by simp [stepMain, hmt, hz])
          · have hl : 1 ≤ (s.finders.map FindTask.live).sum := by
              have := hI.wg1_eq
              simp only [liveFinders] at this
              omega
            obtain ⟨i, todo, hi⟩ := exists_live_finder _ hl
            have hopen : s.records1.closed = false := by
              cases hc : s.records1.closed with
              | false => rfl
              | true => have := hc1.1 hc; simp [hmt, MainTask.rank] at this
            cases todo with
            | nil => exact hfind i (by simp [stepFind, hi, hz])
            | cons r rest =>
              by_cases hcap : s.records1.buf.length < chanCap
              · exact hfind i (by simp [stepFind, hi, hopen, hcap])
              · have hne : s.records1.buf ≠ [] := by
                  intro hnil
                  simp [hnil, chanCap] at hcap
                have hlen : 0 < s.workers.length := by
                  rw [hI.nworkers]; decide
                obtain ⟨t, ht⟩ : ∃ t, s.workers[0]? = some t :=
                  ⟨s.workers[0], List.getElem?_eq_getElem hlen⟩
                have hfull : ¬ s.wg2 < nWorkers := by
                  intro hlt
                  exact hne (hI.worker_exit hlt).2
                have hwg : s.wg2 ≠ 0 := by
                  have : 0 < nWorkers := by decide
                  omega
                have hte : t ≠ .exited := by
                  rintro rfl
                  have := exited_worker_lt s.workers 0 ht
                  have := hI.wg2_eq
                  have := hI.nworkers
                  simp only [liveWorkers] at *
                  omega
                exact hproc 0 (worker_can_move w tbl s 0 t ht hte hwg (Or.inl hne) h2)

theorem stepFind_decreases (s s' : Pipeline) (i : Nat) (hp : s.panicked = false)
    (h : stepFind s i = some s') : workLeft s' < workLeft s := by
  unfold stepFind at h
  cases hf : s.finders[i]? with
  | none => simp [hf] at h
  | some t =>
    cases t with
    | exited => simp [hf] at h
    | sending todo =>
      cases todo with
      | nil =>
        simp only [hf] at h
        split_ifs at h with hz
        · simp only [Option.some.injEq] at h
          subst h
          simp [workLeft, hp]
        · simp only [Option.some.injEq] at h
          subst h
          have h1 := sum_map_set FindTask.live s.finders i _ FindTask.exited hf
          have h2 := sum_map_set FindTask.left s.finders i _ FindTask.exited hf
          simp only [FindTask.live, FindTask.left, FindTask.todo, List.length_nil] at h1 h2
          simp only [workLeft]
          omega
      | cons r rest =>
        simp only [hf] at h
        split_ifs at h with hc hcap
        · simp only [Option.some.injEq] at h
          subst h
          simp [workLeft, hp]
        · simp only [Option.some.injEq] at h
          subst h
          have h1 := sum_map_set FindTask.live s.finders i _ (FindTask.sending rest) hf
          have h2 := sum_map_set FindTask.left s.finders i _ (FindTask.sending rest) hf
          simp only [FindTask.live, FindTask.left, FindTask.todo, List.length_cons] at h1 h2
          simp only [workLeft, List.length_append, List.length_singleton]
          omega

theorem stepProc_decreases (w : World) (tbl : Char → Char) (s s' : Pipeline) (j : Nat)
    (hp : s.panicked = false) (h : stepProc w tbl s j = some s') :
    workLeft s' < workLeft s := by
  unfold stepProc at h
  cases hf : s.workers[j]? with
  | none => simp [hf] at h
  | some t =>
    cases t with
    | exited => simp [hf] at h
    | receiving =>
      simp only [hf] at h
      cases hb : s.records1.buf with
      | nil =>
        simp only [hb] at h
        split_ifs at h with hc hz
        · simp only [Option.some.injEq] at h
          subst h
          simp [workLeft, hp]
        · simp only [Option.some.injEq] at h
          subst h
          have h1 := sum_map_set ProcTask.live s.workers j _ ProcTask.exited hf
          have h2 := sum_map_set ProcTask.load s.workers j _ ProcTask.exited hf
          simp only [ProcTask.live, ProcTask.load, ProcTask.held, List.length_nil] at h1 h2
          simp only [workLeft]
          omega
      | cons r rest =>
        simp only [hb, Option.some.injEq] at h
        subst h
        have h1 := sum_map_set ProcTask.live s.workers j _
          (ProcTask.sending (processRecord w tbl r)) hf
        have h2 := sum_map_set ProcTask.load s.workers j _
          (ProcTask.sending (processRecord w tbl r)) hf
        simp only [ProcTask.live, ProcTask.load, ProcTask.held, List.length_nil,
          List.length_singleton] at h1 h2
        simp only [workLeft, hb, List.length_cons]
        omega
    | sending r =>
      simp only [hf] at h
      split_ifs at h with hc hcap
      · simp only [Option.some.injEq] at h
        subst h
        simp [workLeft, hp]
      · simp only [Option.some.injEq] at h
        subst h
        have h1 := sum_map_set ProcTask.live s.workers j _ ProcTask.receiving hf
        have h2 := sum_map_set ProcTask.load s.workers j _ ProcTask.receiving hf
        simp only [ProcTask.live, ProcTask.load, ProcTask.held, List.length_nil,
          List.length_singleton] at h1 h2
        simp only [workLeft, List.length_append, List.length_singleton]
        omega

theorem stepOut_decreases (created : Bool) (s s' : Pipeline)
    (h : stepOut created s = some s') : workLeft s' < workLeft s := by
  unfold stepOut at h
  cases ho : s.outTask with
  | creating =>
    simp only [ho] at h
    split_ifs at h <;>
    · simp only [Option.some.injEq] at h
      subst h
      simp only [workLeft, ho, OutTask.rank]
      omega
  | receiving =>
    simp only [ho] at h
    cases hb : s.records2.buf with
    | nil =>
      simp only [hb] at h
      split_ifs at h
      simp only [Option.some.injEq] at h
      subst h
      simp only [workLeft, ho, OutTask.rank]
      omega
    | cons r rest =>
      simp only [hb, Option.some.injEq] at h
      subst h
      simp only [workLeft, hb, ho, OutTask.rank, List.length_cons]
      omega
  | signalling => simp [ho] at h
  | exited => simp [ho] at h

theorem stepMain_decreases (s s' : Pipeline) (hp : s.panicked = false)
    (h : stepMain s = some s') : workLeft s' < workLeft s := by
  unfold stepMain at h
  cases hm : s.mainTask with
  | finished => simp [hm] at h
  | waitFinders =>
    simp only [hm] at h
    split_ifs at h
    simp only [Option.some.injEq] at h
    subst h
    simp only [workLeft, hm, MainTask.rank]
    omega
  | closeRecords1 =>
    simp only [hm] at h
    split_ifs at h
    · simp only [Option.some.injEq] at h
      subst h
      simp [workLeft, hp, hm]
    · simp only [Option.some.injEq] at h
      subst h
      simp only [workLeft, hm, MainTask.rank]
      omega
  | waitWorkers =>
    simp only [hm] at h
    split_ifs at h
    simp only [Option.some.injEq] at h
    subst h
    simp only [workLeft, hm, MainTask.rank]
    omega
  | closeRecords2 =>
    simp only [hm] at h
    split_ifs at h
    · simp only [Option.some.injEq] at h
      subst h
      simp [workLeft, hp, hm]
    · simp only [Option.some.injEq] at h
      subst h
      simp only [workLeft, hm, MainTask.rank]
      omega
  | waitDone =>
    simp only [hm] at h
    split_ifs at h with ho
    simp only [Option.some.injEq] at h
    subst h
    simp only [workLeft, hm, ho, MainTask.rank, OutTask.rank]
    omega

theorem step_decreases (w : World) (tbl : Char → Char) (created : Bool) (s s' : Pipeline)
    (a : Action) (h : step w tbl created s a = some s') : workLeft s' < workLeft s := by
  have hp : s.panicked = false := by
    cases hpp : s.panicked with
    | false => rfl
    | true => cases a <;> simp [step, hpp] at h
  cases a with
  | find i =>
    simp only [step] at h
    split_ifs at h
    exact stepFind_decreases s s' i hp h
  | proc j =>
    simp only [step] at h
    split_ifs at h
    exact stepProc_decreases w tbl s s' j hp h
  | out =>
    simp only [step] at h
    split_ifs at h
    exact stepOut_decreases created s s' h
  | main =>
    simp only [step] at h
    split_ifs at h
    exact stepMain_decreases s s' hp h

theorem run_length_le (w : World) (tbl : Char → Char) (created : Bool)
    (sched : List Action) :
    ∀ s s', run w tbl created s sched = some s' → sched.length + workLeft s' ≤ workLeft s := by
  induction sched with
  | nil =>
    intro s s' h
    simp only [run, Option.some.injEq] at h
    subst h
    simp
  | cons a rest ih =>
    intro s s' h
    simp only [run] at h
    cases hs : step w tbl created s a with
    | none => simp [hs] at h
    | some s1 =>
      simp only [hs] at h
      have := ih s1 s' h
      have := step_decreases w tbl created s s1 a hs
      simp only [List.length_cons]
      omega

set_option maxRecDepth 100000 in
theorem deliverSchedule_runs :
    (run sampleWorld id true (Pipeline.init oneRecord) deliverSchedule).map
      (fun s => decide (s.mainTask = .finished)) = some true := by
  decide

theorem mainInit_singleTree :
    mainInit none [(sampleRoot, singleTree)] = Pipeline.init oneRecord := rfl

theorem exists_of_run (w : World) (tbl : Char → Char) (created : Bool)
    (todos : List (List record)) (sched : List Action) (p : Pipeline → Bool)
    (h : (run w tbl created (Pipeline.init todos) sched).map p = some true) :
    ∃ s, Reachable w tbl created todos s ∧ p s = true := by
  cases hrun : run w tbl created (Pipeline.init todos) sched with
  | none => simp [hrun] at h
  | some s =>
    rw [hrun] at h
    exact ⟨s, run_reachable w tbl created todos sched _ s Reachable.init hrun, by simpa using h⟩

/-- Counterexample to C3: `os.Create` fails, the single scanner emits one
record, every queue is closed only after its producers have finished and `main`
runs to its end, and the record has not reached the sink: no row is written. -/
theorem sink_failure_loses_record :
    ∃ s, Reachable sampleWorld id false oneRecord s ∧
      s.mainTask = .finished ∧ s.rows = [] ∧ s.records2.buf.length = 1 := by
  obtain ⟨s, hr, hp⟩ := exists_of_run sampleWorld id false oneRecord lostSchedule _
    lostSchedule_runs
  exact ⟨s, hr, by simpa using hp⟩

/-- Claim C3, amended. In every reachable state of the pipeline (one `find` task
per root, 8 `process` workers, one `out` task and `main`) no goroutine has
panicked, so no record was sent on a closed queue; the scan queue is closed
only after every `find` task has finished and the enriched-record queue only
after every `process` worker has finished. When the sink has opened its
output, the run is never stuck before `main` is done, and once `main` is done
the rows written are exactly the processed forms of the records the scanners
emitted, each as often as it was emitted. Every run is finite. -/
theorem pipeline_closes_after_producers (w : World) (tbl : Char → Char) (created : Bool)
    (todos : List (List record)) (s : Pipeline)
    (h : Reachable w tbl created todos s) :
    s.panicked = false ∧
    (s.records1.closed = true → ∀ t ∈ s.finders, t = FindTask.exited) ∧
    (s.records2.closed = true → ∀ t ∈ s.workers, t = ProcTask.exited) ∧
    (created = true → s.mainTask = .finished →
      s.rows.Perm ((todos.flatten).map (processRecord w tbl))) ∧
    (created = true → s.mainTask ≠ .finished →
      ∃ a s', step w tbl created s a = some s') ∧
    (∀ sched s', run w tbl created s sched = some s' → sched.length ≤ workLeft s) := by
  have hI := inv_reachable w tbl created todos s h
  have hfin : s.records1.closed = true → ∀ t ∈ s.finders, t = FindTask.exited := by
    intro hc
    have h0 := hI.finders_done (by have := hI.closed1_iff.1 hc; omega)
    have := hI.wg1_eq
    exact live_zero_finders _ (by simp only [liveFinders] at this; omega)
  have hwrk : s.records2.closed = true → ∀ t ∈ s.workers, t = ProcTask.exited := by
    intro hc
    have h0 := hI.workers_done (by have := hI.closed2_iff.1 hc; omega)
    have := hI.wg2_eq
    exact live_zero_workers _ (by simp only [liveWorkers] at this; omega)
  refine ⟨hI.noPanic, hfin, hwrk, ?_, ?_, ?_⟩
  · intro hc hm
    have hc1 : s.records1.closed = true := hI.closed1_iff.2 (by simp [hm, MainTask.rank])
    have hc2 : s.records2.closed = true := hI.closed2_iff.2 (by simp [hm, MainTask.rank])
    have hwg2 : s.wg2 = 0 := hI.workers_done (by simp [hm, MainTask.rank])
    have hb1 : s.records1.buf = [] :=
      (hI.worker_exit (by rw [hwg2]; decide)).2
    have hb2 : s.records2.buf = [] :=
      (hI.out_done hc (Or.inr (hI.out_exited.2 hm))).2
    rw [List.perm_iff_count]
    intro x
    have hcons := hI.conserve x
    have hp0 := pending_zero w tbl x s.finders (hfin hc1)
    have hh0 := holds_zero x s.workers (hwrk hc2)
    simp only [pendingCount, heldCount, hb1, hb2, hp0, hh0, List.map_nil, List.count_nil]
      at hcons
    omega
  · intro hc hm
    subst hc
    exact progress w tbl todos s hI hm
  · intro sched s' hrun
    have := run_length_le w tbl created sched s s' hrun
    omega

/-- Witness for the amended C3: a run that delivers the record of
`oneRecord`. -/
theorem pipeline_closes_after_producers_witness :
    ∃ s, Reachable sampleWorld id true oneRecord s ∧ s.mainTask = .finished ∧
      s.panicked = false ∧
      s.rows.Perm ((oneRecord.flatten).map (processRecord sampleWorld id)) := by
  obtain ⟨s, hr, hp⟩ := exists_of_run sampleWorld id true oneRecord deliverSchedule _
    deliverSchedule_runs
  have hm : s.mainTask = .finished := by simpa using hp
  have h := pipeline_closes_after_producers sampleWorld id true oneRecord s hr
  exact ⟨s, hr, hm, h.1, h.2.2.2.1 rfl hm⟩

set_option maxRecDepth 100000 in
theorem overflowSchedule_runs :
    (run sampleWorld id false (Pipeline.init overflowRecords) overflowSchedule).map
      (fun s => decide (s.outTask = .signalling ∧ s.mainTask = .waitWorkers ∧
          s.rows = [] ∧ s.records2.buf.length = 20 ∧ s.panicked = false) &&
        stuck sampleWorld id false s) = some true := by
  decide

/-- Claim C10 fails on the code. The claim: when the sink fails to create the
output, the orchestrator reaches its terminal state at once, without the
scanning and extracting phases having to complete, and never gets stuck. The
code: `os.Create` fails and one of the six scanners has 21 records. `out`
returns and waits at its deferred send on `done`; nobody drains the second
queue, which fills up with 20 records; the worker that holds the last record
blocks on its send; `main` waits at `wg2.Wait()`, not at its end, and no
goroutine can move (the Go runtime then aborts the program: all goroutines are
asleep). No row has been written and nothing has panicked. -/
theorem sink_failure_deadlock :
    ∃ s, Reachable sampleWorld id false overflowRecords s ∧
      s.outTask = .signalling ∧ s.mainTask = .waitWorkers ∧
      s.rows = [] ∧ s.records2.buf.length = 20 ∧ s.panicked = false ∧
      ∀ a, step sampleWorld id false s a = none := by
  obtain ⟨s, hr, hp⟩ := exists_of_run sampleWorld id false overflowRecords
    overflowSchedule _ overflowSchedule_runs
  simp only [Bool.and_eq_true, decide_eq_true_eq] at hp
  obtain ⟨⟨h1, h2, h3, h4, h5⟩, h6⟩ := hp
  exact ⟨s, hr, h1, h2, h3, h4, h5, stuck_sound sampleWorld id false s h6⟩

/-- The same defect while the scanners still run: `os.Create` fails and one of
the six scanners has 49 records. That scanner fills the first queue and the
eight workers fill the second one; then `main` waits at `wg1.Wait()` and no
goroutine can move. -/
theorem sink_failure_deadlock_while_scanning :
    ∃ s, Reachable sampleWorld id false manyRecords s ∧
      s.outTask = .signalling ∧ s.mainTask = .waitFinders ∧
      ∀ a, step sampleWorld id false s a = none := by
  obtain ⟨s, hr, hp⟩ := exists_of_run sampleWorld id false manyRecords stuckSchedule _
    stuckSchedule_runs
  simp only [Bool.and_eq_true, decide_eq_true_eq] at hp
  exact ⟨s, hr, hp.1.1, hp.1.2, stuck_sound sampleWorld id false s hp.2⟩

end Music
